import Mathlib

/-!
Verification development for the noisepan repository.

This file shallowly embeds the parts of the Go code that the checked claims
talk about and proves the claims over that embedding:

* `internal/taste/scorer.go` — the scorer (`Score`, `assignTier`) and the
  trend detector (`FindTrending`, `collectKeywords`).
* `internal/store/store.go` — the relational store state, `InsertPost`,
  `Deduplicate` and `GetChannelStats` (the latter partly modelled from the
  spec, see its doc comment).
* the digest tier-limit loop and the pull loop of the CLI layer.

Modelling conventions:

* Go `time.Time` values are modelled as `Nat` instants (0 is the zero time).
* Go maps are modelled as association lists; iteration over a Go map is
  modelled as iteration in list order (Go map order is unspecified and the
  claims proved here do not depend on it).
* SHA-256 is modelled as an abstract parameter `hash : String → String`;
  the claims proved here hold for every hash function.
* `strings.Contains` is modelled as infix containment on the character list.
* SQL tables are lists of rows; `ON CONFLICT DO UPDATE` updates the rows
  matching the conflict key (exactly one under the unique-key invariant);
  `ON DELETE CASCADE` on `post_also_in` is applied on every post deletion.
-/

namespace Noisepan

/-- Substring containment, modelling Go `strings.Contains`. -/
def strContains (s sub : String) : Bool := decide (sub.data <:+: s.data)

/-- Generic fold lemma: elements that the step function ignores can be
filtered out without changing a left fold. -/
theorem foldl_eq_foldl_filter {α β : Type} (f : β → α → β) (P : α → Bool)
    (hf : ∀ b a, P a = false → f b a = b) :
    ∀ (l : List α) (b : β), l.foldl f b = (l.filter P).foldl f b := by
  intro l
  induction l with
  | nil => intro b; rfl
  | cons x xs ih =>
    intro b
    by_cases hx : P x = true
    · simp [List.filter_cons, hx, List.foldl_cons, ih]
    · have hx0 : P x = false := by
        cases h : P x
        · rfl
        · exact absurd h hx
      simp [List.filter_cons, hx0, List.foldl_cons, hf b x hx0, ih]

namespace source

/-- `source.Post` from `internal/source/source.go`. -/
structure Post where
  Source : String
  Channel : String
  ExternalID : String
  Text : String
  URL : String
  PostedAt : Nat
deriving DecidableEq, Repr

end source

namespace config

/-- `config.Thresholds` from `internal/config/taste.go`. -/
structure Thresholds where
  ReadNow : Int
  Skim : Int
  Ignore : Int
deriving DecidableEq, Repr

/-- `config.RuleCondition`. -/
structure RuleCondition where
  ContainsAny : List String
deriving DecidableEq, Repr

/-- `config.RuleAction`. -/
structure RuleAction where
  ScoreAdd : Int
  Labels : List String
deriving DecidableEq, Repr

/-- `config.Rule`. -/
structure Rule where
  If : RuleCondition
  Then : RuleAction
deriving DecidableEq, Repr

/-- `config.Weights`; the Go `map[string]int` fields are modelled as
association lists. -/
structure Weights where
  HighSignal : List (String × Int)
  LowSignal : List (String × Int)
deriving DecidableEq, Repr

/-- `config.TasteProfile` (the `Labels` documentation map is omitted; no
checked claim mentions it). -/
structure TasteProfile where
  Weights : Weights
  Rules : List Rule
  Thresholds : Thresholds
deriving DecidableEq, Repr

/-- The empty taste profile: no weights, no rules, zero thresholds
(`config.TasteProfile{}` in Go). -/
def emptyProfile : TasteProfile :=
  { Weights := { HighSignal := [], LowSignal := [] }
    Rules := []
    Thresholds := { ReadNow := 0, Skim := 0, Ignore := 0 } }

/-- `validateTaste` from `internal/config/taste.go` (threshold part). -/
def validateTaste (tp : TasteProfile) : Bool :=
  decide (tp.Thresholds.Skim < tp.Thresholds.ReadNow) &&
    decide (tp.Thresholds.Ignore < tp.Thresholds.Skim)

end config

namespace taste

/-- Tier constants from `internal/taste/scorer.go`. -/
def TierReadNow : String := "read_now"

/-- Tier constant `TierSkim`. -/
def TierSkim : String := "skim"

/-- Tier constant `TierIgnore`. -/
def TierIgnore : String := "ignore"

/-- `taste.ScoreContribution`. -/
structure ScoreContribution where
  Reason : String
  Points : Int
deriving DecidableEq, Repr

/-- `taste.ScoredPost`. -/
structure ScoredPost where
  Post : source.Post
  Score : Int
  Labels : List String
  Tier : String
  Explanation : List ScoreContribution
deriving DecidableEq, Repr

/-- `assignTier` from `internal/taste/scorer.go`. -/
def assignTier (score : Int) (t : config.Thresholds) : String :=
  if score ≥ t.ReadNow then TierReadNow
  else if score ≥ t.Skim then TierSkim
  else TierIgnore

/-- `ruleMatches` from `internal/taste/scorer.go`: true when any keyword of
`contains_any` occurs (lowercased) in the lowercased text. -/
def ruleMatches (textLower : String) (cond : config.RuleCondition) : Bool :=
  cond.ContainsAny.any (fun kw => strContains textLower kw.toLower)

/-- Accumulator of the scoring loop in `Score` (Go locals
`total`, `labels`, `explanation`). -/
structure ScoreState where
  total : Int
  labels : List String
  explanation : List ScoreContribution
deriving DecidableEq, Repr

/-- One iteration of the keyword loops of `Score`. -/
def kwStep (textLower : String) (st : ScoreState) (kw : String × Int) : ScoreState :=
  if strContains textLower kw.1.toLower then
    { total := st.total + kw.2
      labels := st.labels
      explanation := st.explanation ++ [⟨"keyword: " ++ kw.1, kw.2⟩] }
  else st

/-- The `reason` string a matching rule records: `"rule"`, or
`"rule: <first keyword of contains_any>"`. -/
def reasonOfRule (r : config.Rule) : String :=
  match r.If.ContainsAny with
  | [] => "rule"
  | kw :: _ => "rule: " ++ kw

/-- One iteration of the rule loop of `Score`. -/
def ruleStep (textLower : String) (st : ScoreState) (r : config.Rule) : ScoreState :=
  if ruleMatches textLower r.If then
    { total := st.total + r.Then.ScoreAdd
      labels := st.labels ++ r.Then.Labels
      explanation := st.explanation ++ [⟨reasonOfRule r, r.Then.ScoreAdd⟩] }
  else st

/-- `slices.Compact`: remove consecutive duplicates. -/
def compactConsec : List String → List String
  | [] => []
  | [a] => [a]
  | a :: b :: rest =>
    if a = b then compactConsec (b :: rest) else a :: compactConsec (b :: rest)

/-- `slices.Sort` followed by `slices.Compact` on the label list. -/
def sortCompact (l : List String) : List String :=
  compactConsec (l.mergeSort (fun a b => decide (a ≤ b)))

/-- `taste.Score` from `internal/taste/scorer.go`: lowercase the text once,
fold the high-signal keywords, the low-signal keywords and the rules in
order, then sort and compact labels and assign the tier. -/
def Score (post : source.Post) (profile : config.TasteProfile) : ScoredPost :=
  let textLower := post.Text.toLower
  let st0 : ScoreState := ⟨0, [], []⟩
  let st1 := profile.Weights.HighSignal.foldl (kwStep textLower) st0
  let st2 := profile.Weights.LowSignal.foldl (kwStep textLower) st1
  let st3 := profile.Rules.foldl (ruleStep textLower) st2
  { Post := post
    Score := st3.total
    Labels := sortCompact st3.labels
    Tier := assignTier st3.total profile.Thresholds
    Explanation := st3.explanation }

end taste

namespace taste

theorem assignTier_eq_readNow_iff (s : Int) (t : config.Thresholds) :
    assignTier s t = TierReadNow ↔ t.ReadNow ≤ s := by
  unfold assignTier
  split_ifs with h1 h2 <;> simp [TierReadNow, TierSkim, TierIgnore] <;> omega

theorem assignTier_eq_skim_iff (s : Int) (t : config.Thresholds) :
    assignTier s t = TierSkim ↔ (t.Skim ≤ s ∧ s < t.ReadNow) := by
  unfold assignTier
  split_ifs with h1 h2 <;> simp [TierReadNow, TierSkim, TierIgnore] <;> omega

theorem assignTier_eq_ignore_iff (s : Int) (t : config.Thresholds)
    (h : t.Skim < t.ReadNow) :
    assignTier s t = TierIgnore ↔ s < t.Skim := by
  unfold assignTier
  split_ifs with h1 h2 <;> simp [TierReadNow, TierSkim, TierIgnore] <;> omega

theorem assignTier_ignore_irrelevant (s : Int) (t : config.Thresholds) (g : Int) :
    assignTier s { t with Ignore := g } = assignTier s t := by
  unfold assignTier
  rfl

/-- The scoring folds ignore the thresholds, so the score of a profile whose
ignore threshold was replaced is unchanged. -/
theorem Score_ignore_threshold_irrelevant (post : source.Post)
    (profile : config.TasteProfile) (g : Int) :
    Score post { profile with
        Thresholds := { profile.Thresholds with Ignore := g } } =
      { Score post profile with
          Tier := assignTier (Score post profile).Score
            { profile.Thresholds with Ignore := g } } := by
  rfl

/-- The tier-assignment contract of the scorer, as one predicate: read_now
iff the score reaches the read_now threshold, skim iff it is in the skim
band, ignore iff it is below the skim threshold, and the ignore threshold
never influences the assigned tier. -/
def TierSpec (post : source.Post) (profile : config.TasteProfile) : Prop :=
  ((Score post profile).Tier = TierReadNow ↔
      profile.Thresholds.ReadNow ≤ (Score post profile).Score) ∧
  ((Score post profile).Tier = TierSkim ↔
      (profile.Thresholds.Skim ≤ (Score post profile).Score ∧
        (Score post profile).Score < profile.Thresholds.ReadNow)) ∧
  ((Score post profile).Tier = TierIgnore ↔
      (Score post profile).Score < profile.Thresholds.Skim) ∧
  (∀ g : Int,
    (Score post { profile with
        Thresholds := { profile.Thresholds with Ignore := g } }).Tier =
      assignTier (Score post profile).Score
        { profile.Thresholds with Ignore := g }) ∧
  (∀ g : Int,
    (Score post { profile with
        Thresholds := { profile.Thresholds with Ignore := g } }).Tier =
      (Score post profile).Tier)

theorem Score_tier_eq_assignTier (post : source.Post) (profile : config.TasteProfile) :
    (Score post profile).Tier = assignTier (Score post profile).Score profile.Thresholds := by
  rfl

/-- C4: for every profile whose thresholds satisfy read_now > skim > ignore
and every post, the scorer is total and assigns read_now iff
score ≥ read_now, skim iff skim ≤ score < read_now, ignore otherwise; the
ignore threshold does not gate the assignment. -/
theorem claim_C4_tier_assignment (post : source.Post)
    (profile : config.TasteProfile)
    (h1 : profile.Thresholds.Skim < profile.Thresholds.ReadNow)
    (h2 : profile.Thresholds.Ignore < profile.Thresholds.Skim) :
    TierSpec post profile := by
  have htier := Score_tier_eq_assignTier post profile
  refine ⟨?_, ?_, ?_, ?_, ?_⟩
  · rw [htier]; exact assignTier_eq_readNow_iff _ _
  · rw [htier]; exact assignTier_eq_skim_iff _ _
  · rw [htier]; exact assignTier_eq_ignore_iff _ _ h1
  · intro g
    rw [Score_ignore_threshold_irrelevant]
  · intro g
    rw [Score_ignore_threshold_irrelevant, htier]
    exact assignTier_ignore_irrelevant _ _ g

/-- Example post used by concrete witnesses. -/
def exPost : source.Post :=
  { Source := "rss", Channel := "devops", ExternalID := "1"
    Text := "Kubernetes release notes", URL := "", PostedAt := 5 }

/-- Example profile with valid thresholds used by concrete witnesses. -/
def exProfile : config.TasteProfile :=
  { Weights := { HighSignal := [("kubernetes", 3), ("cve", 5)], LowSignal := [("webinar", -4)] }
    Rules := [{ If := { ContainsAny := ["breaking change"] }
                Then := { ScoreAdd := 2, Labels := ["ops"] } }]
    Thresholds := { ReadNow := 7, Skim := 3, Ignore := 0 } }

theorem claim_C4_tier_assignment_witness :
    (exProfile.Thresholds.Skim < exProfile.Thresholds.ReadNow ∧
      exProfile.Thresholds.Ignore < exProfile.Thresholds.Skim) ∧
    TierSpec exPost exProfile :=
  ⟨⟨by decide, by decide⟩,
    claim_C4_tier_assignment exPost exProfile (by decide) (by decide)⟩

theorem sortCompact_nil : sortCompact [] = [] := by
  simp [sortCompact, List.mergeSort_nil, compactConsec]

theorem Score_emptyProfile (post : source.Post) :
    Score post config.emptyProfile =
      { Post := post, Score := 0, Labels := [], Tier := TierReadNow,
        Explanation := [] } := by
  show ScoredPost.mk post 0 (sortCompact []) (assignTier 0 config.emptyProfile.Thresholds) [] = _
  rw [sortCompact_nil]
  rfl

/-- C5 counterexample: with the empty profile (all-zero thresholds) the
scorer returns tier read_now, not ignore, because 0 ≥ 0: the claim that the
tier is `ignore` is false on the code. -/
theorem claim_C5_counterexample :
    (Score exPost config.emptyProfile).Score = 0 ∧
      (Score exPost config.emptyProfile).Labels = [] ∧
      (Score exPost config.emptyProfile).Tier ≠ TierIgnore ∧
      (Score exPost config.emptyProfile).Tier = TierReadNow := by
  rw [Score_emptyProfile]
  refine ⟨rfl, rfl, ?_, rfl⟩
  decide

/-- C5 amended: scoring any post against the empty taste profile never
errors and yields score 0, empty labels, empty explanation — and tier
read_now (0 meets the zero read_now threshold; `assignTier` checks the
read_now threshold first). -/
theorem claim_C5_empty_profile_amended (post : source.Post) :
    Score post config.emptyProfile =
      { Post := post, Score := 0, Labels := [], Tier := TierReadNow,
        Explanation := [] } :=
  Score_emptyProfile post

/-- The keyword contributions one keyword loop of `Score` appends. -/
def kwContribs (textLower : String) (ws : List (String × Int)) : List ScoreContribution :=
  ws.filterMap (fun kw =>
    if strContains textLower kw.1.toLower then
      some ⟨"keyword: " ++ kw.1, kw.2⟩
    else none)

/-- The rule contributions the rule loop of `Score` appends. -/
def ruleContribs (textLower : String) (rs : List config.Rule) : List ScoreContribution :=
  rs.filterMap (fun r =>
    if ruleMatches textLower r.If then
      some ⟨reasonOfRule r, r.Then.ScoreAdd⟩
    else none)

/-- A contribution whose reason marks it as coming from a rule. -/
def isRuleContribution (c : ScoreContribution) : Bool :=
  decide ("rule".data <+: c.Reason.data)

theorem foldl_kwStep_spec (tl : String) :
    ∀ (ws : List (String × Int)) (st : ScoreState),
      (ws.foldl (kwStep tl) st).total =
          st.total + ((kwContribs tl ws).map ScoreContribution.Points).sum ∧
        (ws.foldl (kwStep tl) st).explanation = st.explanation ++ kwContribs tl ws ∧
        (ws.foldl (kwStep tl) st).labels = st.labels := by
  intro ws
  induction ws with
  | nil => intro st; simp [kwContribs]
  | cons x xs ih =>
    intro st
    by_cases hx : strContains tl x.1.toLower
    · have h1 := ih { total := st.total + x.2, labels := st.labels
                      explanation := st.explanation ++ [⟨"keyword: " ++ x.1, x.2⟩] }
      simp only [List.foldl_cons, kwStep, hx, if_true, kwContribs, List.filterMap_cons] at h1 ⊢
      refine ⟨?_, ?_, ?_⟩
      · rw [h1.1]; simp [add_assoc]
      · rw [h1.2.1]; simp
      · exact h1.2.2
    · have hx0 : strContains tl x.1.toLower = false := by
        cases h : strContains tl x.1.toLower
        · rfl
        · exact absurd h hx
      have h1 := ih st
      simp only [List.foldl_cons, kwStep, hx0, Bool.false_eq_true, if_false, kwContribs,
        List.filterMap_cons] at h1 ⊢
      simpa [hx0] using h1

theorem foldl_ruleStep_spec (tl : String) :
    ∀ (rs : List config.Rule) (st : ScoreState),
      (rs.foldl (ruleStep tl) st).total =
          st.total + ((ruleContribs tl rs).map ScoreContribution.Points).sum ∧
        (rs.foldl (ruleStep tl) st).explanation = st.explanation ++ ruleContribs tl rs := by
  intro rs
  induction rs with
  | nil => intro st; simp [ruleContribs]
  | cons r rest ih =>
    intro st
    by_cases hr : ruleMatches tl r.If
    · have h1 := ih { total := st.total + r.Then.ScoreAdd
                      labels := st.labels ++ r.Then.Labels
                      explanation := st.explanation ++ [⟨reasonOfRule r, r.Then.ScoreAdd⟩] }
      simp only [List.foldl_cons, ruleStep, hr, if_true, ruleContribs, List.filterMap_cons] at h1 ⊢
      refine ⟨?_, ?_⟩
      · rw [h1.1]; simp [add_assoc]
      · rw [h1.2]; simp
    · have hr0 : ruleMatches tl r.If = false := by
        cases h : ruleMatches tl r.If
        · rfl
        · exact absurd h hr
      have h1 := ih st
      simp only [List.foldl_cons, ruleStep, hr0, Bool.false_eq_true, if_false, ruleContribs,
        List.filterMap_cons] at h1 ⊢
      simpa [hr0] using h1

/-- The explanation of a scored post is exactly the keyword contributions of
the concatenated weight lists followed by the rule contributions. -/
theorem Score_explanation_eq (post : source.Post) (profile : config.TasteProfile) :
    (Score post profile).Explanation =
      kwContribs post.Text.toLower
          (profile.Weights.HighSignal ++ profile.Weights.LowSignal) ++
        ruleContribs post.Text.toLower profile.Rules := by
  unfold Score
  have h1 := foldl_kwStep_spec post.Text.toLower profile.Weights.HighSignal ⟨0, [], []⟩
  have h2 := foldl_kwStep_spec post.Text.toLower profile.Weights.LowSignal
    (profile.Weights.HighSignal.foldl (kwStep post.Text.toLower) ⟨0, [], []⟩)
  have h3 := foldl_ruleStep_spec post.Text.toLower profile.Rules
    (profile.Weights.LowSignal.foldl (kwStep post.Text.toLower)
      (profile.Weights.HighSignal.foldl (kwStep post.Text.toLower) ⟨0, [], []⟩))
  simp only [h3.2, h2.2.1, h1.2.1, kwContribs, List.filterMap_append]
  simp

theorem Score_score_eq (post : source.Post) (profile : config.TasteProfile) :
    (Score post profile).Score =
      ((kwContribs post.Text.toLower
          (profile.Weights.HighSignal ++ profile.Weights.LowSignal)).map
            ScoreContribution.Points).sum +
        ((ruleContribs post.Text.toLower profile.Rules).map
            ScoreContribution.Points).sum := by
  unfold Score
  have h1 := foldl_kwStep_spec post.Text.toLower profile.Weights.HighSignal ⟨0, [], []⟩
  have h2 := foldl_kwStep_spec post.Text.toLower profile.Weights.LowSignal
    (profile.Weights.HighSignal.foldl (kwStep post.Text.toLower) ⟨0, [], []⟩)
  have h3 := foldl_ruleStep_spec post.Text.toLower profile.Rules
    (profile.Weights.LowSignal.foldl (kwStep post.Text.toLower)
      (profile.Weights.HighSignal.foldl (kwStep post.Text.toLower) ⟨0, [], []⟩))
  simp only [h3.1, h2.1, h1.1, kwContribs, List.filterMap_append]
  simp [add_assoc]

theorem string_append_left_cancel {s a b : String} (h : s ++ a = s ++ b) : a = b := by
  have h2 := congrArg String.data h
  simp only [String.data_append] at h2
  exact String.ext (List.append_cancel_left h2)

theorem rule_reason_ne_keyword (r : config.Rule) (kw : String) :
    reasonOfRule r ≠ "keyword: " ++ kw := by
  unfold reasonOfRule
  intro h
  have h2 : (match r.If.ContainsAny with
      | [] => "rule"
      | kw :: _ => "rule: " ++ kw).data = ("keyword: " ++ kw).data := congrArg String.data h
  match hc : r.If.ContainsAny with
  | [] =>
    rw [hc] at h2
    simp only [String.data_append] at h2
    have h3 := congrArg List.length h2
    simp [List.length_append] at h3
  | x :: _ =>
    rw [hc] at h2
    simp only [String.data_append] at h2
    simp only [List.cons_append, List.cons.injEq] at h2
    exact absurd h2.1 (by decide)

theorem not_rule_prefix_keyword (kw : String) :
    ¬ ("rule".data <+: ("keyword: " ++ kw).data) := by
  intro h
  rw [String.data_append] at h
  have hr : "rule".data = 'r' :: "ule".data := by decide
  have hk : "keyword: ".data = 'k' :: "eyword: ".data := by decide
  rw [hr, hk] at h
  rw [List.cons_append, List.cons_prefix_cons] at h
  exact absurd h.1 (by decide)

theorem rule_prefix_reasonOfRule (r : config.Rule) :
    "rule".data <+: (reasonOfRule r).data := by
  unfold reasonOfRule
  match hc : r.If.ContainsAny with
  | [] => decide
  | x :: _ =>
    rw [String.data_append]
    have hr : "rule: ".data = "rule".data ++ [':', ' '] := by decide
    rw [hr, List.append_assoc]
    exact List.prefix_append _ _

theorem countP_rule_kwContribs (tl : String) (ws : List (String × Int)) :
    (kwContribs tl ws).countP isRuleContribution = 0 := by
  rw [List.countP_eq_zero]
  intro c hc
  rw [kwContribs, List.mem_filterMap] at hc
  obtain ⟨x, _, hx⟩ := hc
  by_cases hcond : strContains tl x.1.toLower
  · rw [if_pos hcond] at hx
    cases hx
    simp only [isRuleContribution, decide_eq_true_eq]
    exact not_rule_prefix_keyword x.1
  · rw [if_neg hcond] at hx
    cases hx

theorem countP_rule_ruleContribs (tl : String) (rs : List config.Rule) :
    (ruleContribs tl rs).countP isRuleContribution =
      rs.countP (fun r => ruleMatches tl r.If) := by
  induction rs with
  | nil => rfl
  | cons r rest ih =>
    by_cases hr : ruleMatches tl r.If
    · simp only [ruleContribs, List.filterMap_cons, hr, if_true, List.countP_cons]
      have : isRuleContribution ⟨reasonOfRule r, r.Then.ScoreAdd⟩ = true := by
        simp [isRuleContribution, rule_prefix_reasonOfRule r]
      simp only [this, if_true, List.countP_cons, hr]
      simp [ruleContribs] at ih
      omega
    · have hr0 : ruleMatches tl r.If = false := by
        cases h : ruleMatches tl r.If
        · rfl
        · exact absurd h hr
      simp only [ruleContribs, List.filterMap_cons, hr0, List.countP_cons]
      simp [ruleContribs] at ih
      simp [ih, hr0]

theorem countP_keyword_ruleContribs (tl : String) (rs : List config.Rule) (kw : String) :
    (ruleContribs tl rs).countP
        (fun c => decide (c.Reason = "keyword: " ++ kw)) = 0 := by
  rw [List.countP_eq_zero]
  intro c hc
  rw [ruleContribs, List.mem_filterMap] at hc
  obtain ⟨r, _, hr⟩ := hc
  by_cases hcond : ruleMatches tl r.If
  · rw [if_pos hcond] at hr
    cases hr
    simp only [decide_eq_true_eq]
    exact rule_reason_ne_keyword r kw
  · rw [if_neg hcond] at hr
    cases hr

theorem countP_filterMap_le {α β : Type} (f : α → Option β) (p : β → Bool) (q : α → Bool)
    (h : ∀ a b, f a = some b → p b = true → q a = true) :
    ∀ l : List α, (l.filterMap f).countP p ≤ l.countP q := by
  intro l
  induction l with
  | nil => simp
  | cons a l ih =>
    cases hf : f a with
    | none =>
      simp only [List.filterMap_cons, hf, List.countP_cons]
      split_ifs <;> omega
    | some b =>
      simp only [List.filterMap_cons, hf, List.countP_cons]
      by_cases hp : p b = true
      · have hq := h a b hf hp
        simp only [hp, hq, if_true]
        omega
      · have hp0 : p b = false := by
          cases hpb : p b
          · rfl
          · exact absurd hpb hp
        simp only [hp0, Bool.false_eq_true, if_false]
        split_ifs <;> omega

theorem countP_keyword_kwContribs (tl : String) (ws : List (String × Int)) (kw : String) :
    (kwContribs tl ws).countP (fun c => decide (c.Reason = "keyword: " ++ kw)) ≤
      ws.countP (fun x => decide (x.1 = kw)) := by
  apply countP_filterMap_le
  intro a b hf hp
  by_cases hcond : strContains tl a.1.toLower
  · rw [if_pos hcond] at hf
    cases hf
    simp only [decide_eq_true_eq] at hp ⊢
    exact string_append_left_cancel hp
  · rw [if_neg hcond] at hf
    cases hf

theorem countP_fst_le_one_of_nodup (ws : List (String × Int)) (kw : String)
    (h : (ws.map Prod.fst).Nodup) :
    ws.countP (fun x => decide (x.1 = kw)) ≤ 1 := by
  have h1 : ws.countP (fun x => decide (x.1 = kw)) =
      (ws.map Prod.fst).countP (fun s => decide (s = kw)) := by
    rw [List.countP_map]
    rfl
  rw [h1]
  have h2 : (ws.map Prod.fst).countP (fun s => decide (s = kw)) =
      List.count kw (ws.map Prod.fst) := by
    rw [List.count_eq_countP]
    apply List.countP_congr
    intro s _
    simp [beq_iff_eq]
  rw [h2]
  exact List.nodup_iff_count_le_one.mp h kw

/-- The explanation contract of the scorer, as one predicate: the points of
the explanation sum to the score; for every keyword there is at most one
keyword contribution naming it; and the rule contributions are exactly one
per matching rule (so a rule contributes at most once even when several of
its contains_any keywords match). -/
def ExplanationSpec (post : source.Post) (profile : config.TasteProfile) : Prop :=
  (((Score post profile).Explanation.map ScoreContribution.Points).sum =
      (Score post profile).Score) ∧
  (∀ kw : String,
    (Score post profile).Explanation.countP
        (fun c => decide (c.Reason = "keyword: " ++ kw)) ≤ 1) ∧
  ((Score post profile).Explanation.countP isRuleContribution =
    profile.Rules.countP (fun r => ruleMatches post.Text.toLower r.If))

/-- C3: for every post and taste profile whose keyword lists have no
duplicate keywords, the explanation contributions sum exactly to the score,
each keyword contributes at most once regardless of text occurrences, and
each rule contributes at most once even when several keywords match. -/
theorem claim_C3_explanation_sum (post : source.Post) (profile : config.TasteProfile)
    (hkeys : ((profile.Weights.HighSignal ++ profile.Weights.LowSignal).map
        Prod.fst).Nodup) :
    ExplanationSpec post profile := by
  refine ⟨?_, ?_, ?_⟩
  · rw [Score_explanation_eq, Score_score_eq]
    simp
  · intro kw
    rw [Score_explanation_eq, List.countP_append, countP_keyword_ruleContribs]
    have h1 := countP_keyword_kwContribs post.Text.toLower
      (profile.Weights.HighSignal ++ profile.Weights.LowSignal) kw
    have h2 := countP_fst_le_one_of_nodup
      (profile.Weights.HighSignal ++ profile.Weights.LowSignal) kw hkeys
    omega
  · rw [Score_explanation_eq, List.countP_append, countP_rule_kwContribs,
      countP_rule_ruleContribs]
    omega

theorem claim_C3_explanation_sum_witness :
    ((exProfile.Weights.HighSignal ++ exProfile.Weights.LowSignal).map
        Prod.fst).Nodup ∧
      ExplanationSpec exPost exProfile :=
  ⟨by decide, claim_C3_explanation_sum exPost exProfile (by decide)⟩

/-- One step of `collectKeywords`: the accumulator is the Go `seen` set of
lowercased keywords paired with the kept keyword list. -/
def collectStep (acc : List String × List String) (kw : String) : List String × List String :=
  if kw.toLower ∈ acc.1 then acc else (acc.1 ++ [kw.toLower], acc.2 ++ [kw])

/-- `collectKeywords` from `internal/taste/scorer.go`: the high-signal keys
followed by every rule's contains_any keywords, case-insensitively unique,
first occurrence kept. -/
def collectKeywords (profile : config.TasteProfile) : List String :=
  let acc1 := (profile.Weights.HighSignal.map Prod.fst).foldl collectStep ([], [])
  let acc2 := profile.Rules.foldl (fun a r => r.If.ContainsAny.foldl collectStep a) acc1
  acc2.2

/-- A post that `FindTrending` considers: tier read_now or skim. -/
def considered (sp : ScoredPost) : Bool :=
  sp.Tier == TierReadNow || sp.Tier == TierSkim

/-- Set-insert used to model the Go `map[string]bool` channel sets, keyed in
first-insertion order. -/
def insertUniq (l : List String) (c : String) : List String :=
  if c ∈ l then l else l ++ [c]

/-- The distinct channels of considered posts whose lowercased text contains
the lowercased keyword (the `kwChannels` map of `FindTrending`, per key). -/
def kwChannels (posts : List ScoredPost) (kw : String) : List String :=
  posts.foldl (fun acc sp =>
    if considered sp && strContains sp.Post.Text.toLower kw.toLower then
      insertUniq acc sp.Post.Channel
    else acc) []

/-- The distinct non-empty URLs of considered posts, in first-occurrence
order (the key set of the `urlChannels` map of `FindTrending`). -/
def urlList (posts : List ScoredPost) : List String :=
  posts.foldl (fun acc sp =>
    if considered sp && sp.Post.URL != "" then insertUniq acc sp.Post.URL
    else acc) []

/-- The distinct channels of considered posts carrying the given URL (the
`urlChannels` map of `FindTrending`, per key). -/
def urlChannels (posts : List ScoredPost) (url : String) : List String :=
  posts.foldl (fun acc sp =>
    if considered sp && sp.Post.URL != "" && sp.Post.URL == url then
      insertUniq acc sp.Post.Channel
    else acc) []

/-- `taste.Trend`. -/
structure Trend where
  Keyword : String
  Channels : List String
deriving DecidableEq, Repr

/-- `sort.Strings` on a channel list. -/
def sortStrings (l : List String) : List String :=
  l.mergeSort (fun a b => decide (a ≤ b))

/-- The comparison of the final `sort.Slice` in `FindTrending`: descending
channel count, ties broken by ascending keyword. -/
def trendLe (a b : Trend) : Bool :=
  if a.Channels.length = b.Channels.length then decide (a.Keyword ≤ b.Keyword)
  else decide (b.Channels.length < a.Channels.length)

/-- The keywords that meet the threshold, i.e. the Go `seen` map after the
keyword loop of `FindTrending`. -/
def emittedKeywords (posts : List ScoredPost) (profile : config.TasteProfile)
    (ms : Nat) : List String :=
  (collectKeywords profile).filter (fun kw => decide (ms ≤ (kwChannels posts kw).length))

/-- The keyword trends the first emission loop of `FindTrending` builds. -/
def kwTrendsOf (posts : List ScoredPost) (profile : config.TasteProfile)
    (ms : Nat) : List Trend :=
  (collectKeywords profile).filterMap (fun kw =>
    if ms ≤ (kwChannels posts kw).length then
      some ⟨kw, sortStrings (kwChannels posts kw)⟩
    else none)

/-- The URL trends the second emission loop of `FindTrending` builds: a URL
qualifies when its channel set meets the threshold and no keyword of the
same string was already emitted. -/
def urlTrendsOf (posts : List ScoredPost) (profile : config.TasteProfile)
    (ms : Nat) : List Trend :=
  (urlList posts).filterMap (fun u =>
    if ms ≤ (urlChannels posts u).length ∧ u ∉ emittedKeywords posts profile ms then
      some ⟨u, sortStrings (urlChannels posts u)⟩
    else none)

/-- `FindTrending` from `internal/taste/scorer.go`: clamp `minSources` to at
least 2; return nothing when the profile has no candidate keywords; emit a
trend per candidate keyword whose channel set meets the threshold, then per
qualifying URL not already emitted as a keyword; sort by descending channel
count with keyword-ascending ties. Iteration over the Go maps is modelled
in first-insertion order; the final sort makes the output order
independent of that choice. -/
def FindTrending (posts : List ScoredPost) (profile : config.TasteProfile)
    (minSources : Nat) : List Trend :=
  let ms := if minSources < 2 then 2 else minSources
  if (collectKeywords profile).isEmpty then [] else
  (kwTrendsOf posts profile ms ++ urlTrendsOf posts profile ms).mergeSort trendLe

/-- Generic fold lemma: a property preserved by every step holds of the
fold result. -/
theorem foldl_preserves {α β : Type} (f : β → α → β) (P : β → Prop)
    (hstep : ∀ b a, P b → P (f b a)) :
    ∀ (l : List α) (b : β), P b → P (l.foldl f b) := by
  intro l
  induction l with
  | nil => intro b hb; exact hb
  | cons x xs ih => intro b hb; exact ih _ (hstep b x hb)

theorem insertUniq_nodup (l : List String) (c : String) (h : l.Nodup) :
    (insertUniq l c).Nodup := by
  unfold insertUniq
  by_cases hc : c ∈ l
  · rw [if_pos hc]; exact h
  · rw [if_neg hc]
    rw [List.nodup_append]
    refine ⟨h, List.nodup_singleton c, ?_⟩
    rw [List.disjoint_left]
    intro a ha hmem
    rw [List.mem_singleton] at hmem
    exact hc (hmem ▸ ha)

theorem kwChannels_nodup (posts : List ScoredPost) (kw : String) :
    (kwChannels posts kw).Nodup := by
  unfold kwChannels
  apply foldl_preserves _ List.Nodup
  · intro b a hb
    dsimp only
    split_ifs with h
    · exact insertUniq_nodup b a.Post.Channel hb
    · exact hb
  · exact List.nodup_nil

theorem urlChannels_nodup (posts : List ScoredPost) (url : String) :
    (urlChannels posts url).Nodup := by
  unfold urlChannels
  apply foldl_preserves _ List.Nodup
  · intro b a hb
    dsimp only
    split_ifs with h
    · exact insertUniq_nodup b a.Post.Channel hb
    · exact hb
  · exact List.nodup_nil

theorem urlList_nodup (posts : List ScoredPost) : (urlList posts).Nodup := by
  unfold urlList
  apply foldl_preserves _ List.Nodup
  · intro b a hb
    dsimp only
    split_ifs with h
    · exact insertUniq_nodup b a.Post.URL hb
    · exact hb
  · exact List.nodup_nil

theorem collect_inv (kws : List String) :
    ∀ acc : List String × List String,
      acc.1 = acc.2.map String.toLower → acc.1.Nodup →
      ((kws.foldl collectStep acc).1 =
          (kws.foldl collectStep acc).2.map String.toLower ∧
        (kws.foldl collectStep acc).1.Nodup) := by
  induction kws with
  | nil => intro acc h1 h2; exact ⟨h1, h2⟩
  | cons x xs ih =>
    intro acc h1 h2
    rw [List.foldl_cons]
    by_cases hx : x.toLower ∈ acc.1
    · have hs : collectStep acc x = acc := by
        unfold collectStep; rw [if_pos hx]
      rw [hs]
      exact ih acc h1 h2
    · have hs : collectStep acc x = (acc.1 ++ [x.toLower], acc.2 ++ [x]) := by
        unfold collectStep; rw [if_neg hx]
      rw [hs]
      apply ih
      · simp [h1]
      · rw [List.nodup_append]
        refine ⟨h2, List.nodup_singleton _, ?_⟩
        rw [List.disjoint_left]
        intro a ha hmem
        rw [List.mem_singleton] at hmem
        exact hx (hmem ▸ ha)

theorem collect_rules_inv (rules : List config.Rule) :
    ∀ acc : List String × List String,
      acc.1 = acc.2.map String.toLower → acc.1.Nodup →
      (((rules.foldl (fun a r => r.If.ContainsAny.foldl collectStep a) acc).1 =
          (rules.foldl (fun a r => r.If.ContainsAny.foldl collectStep a) acc).2.map
            String.toLower) ∧
        (rules.foldl (fun a r => r.If.ContainsAny.foldl collectStep a) acc).1.Nodup) := by
  induction rules with
  | nil => intro acc h1 h2; exact ⟨h1, h2⟩
  | cons r rest ih =>
    intro acc h1 h2
    rw [List.foldl_cons]
    have h3 := collect_inv r.If.ContainsAny acc h1 h2
    exact ih _ h3.1 h3.2

theorem collectKeywords_nodup (profile : config.TasteProfile) :
    (collectKeywords profile).Nodup := by
  unfold collectKeywords
  have h0 := collect_inv (profile.Weights.HighSignal.map Prod.fst) ([], [])
    rfl List.nodup_nil
  have h1 := collect_rules_inv profile.Rules _ h0.1 h0.2
  exact List.Nodup.of_map String.toLower (h1.1 ▸ h1.2)

theorem kwTrends_keys (posts : List ScoredPost) (profile : config.TasteProfile)
    (ms : Nat) :
    (kwTrendsOf posts profile ms).map Trend.Keyword =
      emittedKeywords posts profile ms := by
  unfold kwTrendsOf emittedKeywords
  generalize collectKeywords profile = l
  induction l with
  | nil => rfl
  | cons x xs ih =>
    by_cases hx : ms ≤ (kwChannels posts x).length
    · simp only [List.filterMap_cons, if_pos hx, List.map_cons, List.filter_cons,
        decide_eq_true_eq, hx, if_true, ih]
    · simp only [List.filterMap_cons, if_neg hx, List.filter_cons, decide_eq_true_eq, hx,
        if_false, ih]

theorem urlTrends_keys (posts : List ScoredPost) (profile : config.TasteProfile)
    (ms : Nat) :
    (urlTrendsOf posts profile ms).map Trend.Keyword =
      (urlList posts).filter (fun u =>
        decide (ms ≤ (urlChannels posts u).length ∧
          u ∉ emittedKeywords posts profile ms)) := by
  unfold urlTrendsOf
  generalize urlList posts = l
  induction l with
  | nil => rfl
  | cons x xs ih =>
    by_cases hx : ms ≤ (urlChannels posts x).length ∧
        x ∉ emittedKeywords posts profile ms
    · have hd : decide (ms ≤ (urlChannels posts x).length ∧
          x ∉ emittedKeywords posts profile ms) = true := decide_eq_true hx
      simp only [List.filterMap_cons, if_pos hx, List.map_cons, List.filter_cons, hd,
        if_true, ih]
    · have hd : decide (ms ≤ (urlChannels posts x).length ∧
          x ∉ emittedKeywords posts profile ms) = false := decide_eq_false hx
      simp only [List.filterMap_cons, if_neg hx, List.filter_cons, hd,
        Bool.false_eq_true, if_false, ih]

theorem trendKeys_nodup (posts : List ScoredPost) (profile : config.TasteProfile)
    (ms : Nat) :
    ((kwTrendsOf posts profile ms ++ urlTrendsOf posts profile ms).map
        Trend.Keyword).Nodup := by
  rw [List.map_append, List.nodup_append, kwTrends_keys, urlTrends_keys]
  refine ⟨(collectKeywords_nodup profile).filter _, (urlList_nodup posts).filter _, ?_⟩
  rw [List.disjoint_left]
  intro a ha hb
  rw [List.mem_filter] at hb
  have hb2 := of_decide_eq_true hb.2
  exact hb2.2 ha

theorem trendLe_total (a b : Trend) : (trendLe a b || trendLe b a) = true := by
  unfold trendLe
  by_cases h : a.Channels.length = b.Channels.length
  · rw [if_pos h, if_pos h.symm]
    rcases le_total a.Keyword b.Keyword with hle | hle
    · simp [hle]
    · simp [hle]
  · rw [if_neg h, if_neg (Ne.symm h)]
    rcases Nat.lt_or_ge a.Channels.length b.Channels.length with hlt | hge
    · simp [hlt]
    · have : b.Channels.length < a.Channels.length := by omega
      simp [this]

theorem trendLe_trans (a b c : Trend) (h1 : trendLe a b = true)
    (h2 : trendLe b c = true) : trendLe a c = true := by
  unfold trendLe at h1 h2 ⊢
  by_cases hab : a.Channels.length = b.Channels.length <;>
    by_cases hbc : b.Channels.length = c.Channels.length
  · rw [if_pos hab] at h1
    rw [if_pos hbc] at h2
    rw [if_pos (hab.trans hbc)]
    rw [decide_eq_true_eq] at h1 h2 ⊢
    exact le_trans h1 h2
  · rw [if_neg hbc] at h2
    rw [decide_eq_true_eq] at h2
    have hac : a.Channels.length ≠ c.Channels.length := by omega
    rw [if_neg hac, decide_eq_true_eq]
    omega
  · rw [if_neg hab] at h1
    rw [decide_eq_true_eq] at h1
    have hac : a.Channels.length ≠ c.Channels.length := by omega
    rw [if_neg hac, decide_eq_true_eq]
    omega
  · rw [if_neg hab] at h1
    rw [if_neg hbc] at h2
    rw [decide_eq_true_eq] at h1 h2
    have hac : a.Channels.length ≠ c.Channels.length := by omega
    rw [if_neg hac, decide_eq_true_eq]
    omega

theorem kwChannels_filter_considered (posts : List ScoredPost) :
    kwChannels (posts.filter (fun sp => considered sp)) = kwChannels posts := by
  funext kw
  unfold kwChannels
  refine (foldl_eq_foldl_filter _ considered ?_ posts []).symm
  intro b a ha
  simp [ha]

theorem urlChannels_filter_considered (posts : List ScoredPost) :
    urlChannels (posts.filter (fun sp => considered sp)) = urlChannels posts := by
  funext url
  unfold urlChannels
  refine (foldl_eq_foldl_filter _ considered ?_ posts []).symm
  intro b a ha
  simp [ha]

theorem urlList_filter_considered (posts : List ScoredPost) :
    urlList (posts.filter (fun sp => considered sp)) = urlList posts := by
  unfold urlList
  refine (foldl_eq_foldl_filter _ considered ?_ posts []).symm
  intro b a ha
  simp [ha]

/-- The behavioural contract of the trend detector: no-keyword early
return; min_sources clamping; insensitivity to posts outside the read_now
and skim tiers; distinctness of every channel set; emission of every
qualifying keyword and — when the candidate keyword set is non-empty — of
every qualifying URL not shadowed by an emitted keyword; and sortedness by
strictly descending channel count with strictly ascending keyword ties. -/
def TrendingSpec (posts : List ScoredPost) (profile : config.TasteProfile)
    (m : Nat) : Prop :=
  (collectKeywords profile = [] → FindTrending posts profile m = []) ∧
  (m < 2 → FindTrending posts profile m = FindTrending posts profile 2) ∧
  (FindTrending posts profile m =
    FindTrending (posts.filter (fun sp => considered sp)) profile m) ∧
  (∀ kw, (kwChannels posts kw).Nodup) ∧
  (∀ u, (urlChannels posts u).Nodup) ∧
  (∀ kw ∈ collectKeywords profile,
    (if m < 2 then 2 else m) ≤ (kwChannels posts kw).length →
    Trend.mk kw (sortStrings (kwChannels posts kw)) ∈ FindTrending posts profile m) ∧
  (collectKeywords profile ≠ [] →
    ∀ u ∈ urlList posts,
      (if m < 2 then 2 else m) ≤ (urlChannels posts u).length →
      u ∉ emittedKeywords posts profile (if m < 2 then 2 else m) →
      Trend.mk u (sortStrings (urlChannels posts u)) ∈ FindTrending posts profile m) ∧
  (FindTrending posts profile m).Pairwise (fun a b =>
    b.Channels.length < a.Channels.length ∨
      (a.Channels.length = b.Channels.length ∧ a.Keyword < b.Keyword))

theorem findTrending_not_empty_case (posts : List ScoredPost)
    (profile : config.TasteProfile) (m : Nat)
    (hne : collectKeywords profile ≠ []) :
    FindTrending posts profile m =
      (kwTrendsOf posts profile (if m < 2 then 2 else m) ++
        urlTrendsOf posts profile (if m < 2 then 2 else m)).mergeSort trendLe := by
  have hie : (collectKeywords profile).isEmpty = false := by
    cases h : (collectKeywords profile).isEmpty
    · rfl
    · exact absurd (List.isEmpty_iff.mp h) hne
  simp only [FindTrending, hie, Bool.false_eq_true, if_false]

/-- C6 amended: the trend detector satisfies `TrendingSpec`, which differs
from the literal claim only in recording the early return on profiles with
no candidate keywords (in that case no URL trend is emitted either). -/
theorem claim_C6_trending_amended (posts : List ScoredPost)
    (profile : config.TasteProfile) (m : Nat) :
    TrendingSpec posts profile m := by
  refine ⟨?_, ?_, ?_, ?_, ?_, ?_, ?_, ?_⟩
  · intro h
    simp [FindTrending, h]
  · intro h
    simp [FindTrending, h]
  · simp only [FindTrending, kwTrendsOf, urlTrendsOf, emittedKeywords,
      kwChannels_filter_considered, urlChannels_filter_considered,
      urlList_filter_considered]
  · intro kw
    exact kwChannels_nodup posts kw
  · intro u
    exact urlChannels_nodup posts u
  · intro kw hkw hlen
    have hne : collectKeywords profile ≠ [] := by
      intro h
      rw [h] at hkw
      exact absurd hkw (List.not_mem_nil kw)
    rw [findTrending_not_empty_case posts profile m hne, List.mem_mergeSort,
      List.mem_append]
    left
    rw [kwTrendsOf, List.mem_filterMap]
    exact ⟨kw, hkw, by rw [if_pos hlen]⟩
  · intro hne u hu hlen hnotkw
    rw [findTrending_not_empty_case posts profile m hne, List.mem_mergeSort,
      List.mem_append]
    right
    rw [urlTrendsOf, List.mem_filterMap]
    exact ⟨u, hu, by rw [if_pos ⟨hlen, hnotkw⟩]⟩
  · by_cases hne : collectKeywords profile = []
    · simp [FindTrending, hne]
    · rw [findTrending_not_empty_case posts profile m hne]
      have hsorted := List.sorted_mergeSort
        (fun a b c => trendLe_trans a b c) trendLe_total
        (kwTrendsOf posts profile (if m < 2 then 2 else m) ++
          urlTrendsOf posts profile (if m < 2 then 2 else m))
      have hperm := List.mergeSort_perm
        (kwTrendsOf posts profile (if m < 2 then 2 else m) ++
          urlTrendsOf posts profile (if m < 2 then 2 else m)) trendLe
      have hnd := trendKeys_nodup posts profile (if m < 2 then 2 else m)
      have hnd2 : ((((kwTrendsOf posts profile (if m < 2 then 2 else m) ++
          urlTrendsOf posts profile (if m < 2 then 2 else m)).mergeSort
            trendLe)).map Trend.Keyword).Nodup :=
        ((hperm.map Trend.Keyword).nodup_iff).mpr hnd
      have hpw : (((kwTrendsOf posts profile (if m < 2 then 2 else m) ++
          urlTrendsOf posts profile (if m < 2 then 2 else m)).mergeSort
            trendLe)).Pairwise (fun a b => a.Keyword ≠ b.Keyword) :=
        List.pairwise_map.mp hnd2
      refine (hsorted.and hpw).imp ?_
      intro a b hab
      obtain ⟨hle, hkeys⟩ := hab
      unfold trendLe at hle
      by_cases h : a.Channels.length = b.Channels.length
      · rw [if_pos h, decide_eq_true_eq] at hle
        exact Or.inr ⟨h, lt_of_le_of_ne hle hkeys⟩
      · rw [if_neg h, decide_eq_true_eq] at hle
        exact Or.inl hle

/-- Two read_now posts from distinct channels sharing one URL, used to
refute the unconditional URL-emission part of the trend claim. -/
def c6Posts : List ScoredPost :=
  [{ Post := { Source := "rss", Channel := "a", ExternalID := "1", Text := "",
               URL := "https://x.example/a", PostedAt := 1 }
     Score := 5, Labels := [], Tier := "read_now", Explanation := [] },
   { Post := { Source := "rss", Channel := "b", ExternalID := "2", Text := "",
               URL := "https://x.example/a", PostedAt := 2 }
     Score := 5, Labels := [], Tier := "read_now", Explanation := [] }]

/-- C6 counterexample: with a profile that has no candidate keywords, a URL
seen in two distinct channels qualifies under the claim (channel-set size
2 ≥ min_sources = 2, and no keyword with the same string was emitted), yet
`FindTrending` returns no trends at all because of its early return on an
empty candidate keyword set. -/
theorem claim_C6_counterexample :
    FindTrending c6Posts config.emptyProfile 2 = [] ∧
      "https://x.example/a" ∈ urlList c6Posts ∧
      2 ≤ (urlChannels c6Posts "https://x.example/a").length ∧
      emittedKeywords c6Posts config.emptyProfile 2 = [] := by
  refine ⟨?_, by decide, by decide, by decide⟩
  have h : collectKeywords config.emptyProfile = [] := by decide
  simp [FindTrending, h]

theorem claim_C6_trending_amended_witness :
    TrendingSpec c6Posts exProfile 3 :=
  claim_C6_trending_amended c6Posts exProfile 3

end taste

namespace store

/-- `store.Post` from `internal/store/store.go` (a row of the `posts`
table). -/
structure Post where
  ID : Nat
  Source : String
  Channel : String
  ExternalID : String
  Text : String
  Snippet : String
  TextHash : String
  URL : String
  PostedAt : Nat
  FetchedAt : Nat
deriving DecidableEq, Repr

/-- `store.Score` (a row of the `scores` table); the `explanation` JSON
blob is kept as an opaque string. -/
structure Score where
  PostID : Nat
  Score : Int
  Labels : List String
  Tier : String
  ScoredAt : Nat
  Explanation : String
deriving DecidableEq, Repr

/-- A row of the `post_also_in` table. -/
structure AlsoInRow where
  PostID : Nat
  Source : String
  Channel : String
deriving DecidableEq, Repr

/-- The relational state of the store: the three row tables plus the next
AUTOINCREMENT id for `posts`. -/
structure StoreState where
  posts : List Post
  scores : List Score
  alsoIn : List AlsoInRow
  nextId : Nat
deriving DecidableEq, Repr

/-- `store.PostInput`. -/
structure PostInput where
  Source : String
  Channel : String
  ExternalID : String
  Text : String
  Snippet : String
  URL : String
  PostedAt : Nat
  FetchedAt : Nat
deriving DecidableEq, Repr

/-- `firstNRunes` from `internal/store/store.go`: the first `n` Unicode
code points of `s`. -/
def firstNRunes (s : String) (n : Nat) : String :=
  String.mk (s.data.take n)

/-- `textHash` from `internal/store/store.go`, with SHA-256 abstracted as
the `hash` parameter: the hash of the text when non-empty, else of the
snippet. -/
def textHash (hash : String → String) (text snippet : String) : String :=
  if text = "" then hash snippet else hash text

/-- The `ON CONFLICT(source, channel, external_id)` natural-key match. -/
def natKeyMatches (inp : PostInput) (p : Post) : Bool :=
  p.Source == inp.Source && p.Channel == inp.Channel && p.ExternalID == inp.ExternalID

/-- Go `strings.TrimSpace`, modelled over the character list: drop leading
and trailing whitespace. -/
def trimSpace (s : String) : String :=
  String.mk (((s.data.dropWhile Char.isWhitespace).reverse.dropWhile
    Char.isWhitespace).reverse)

/-- The snippet `InsertPost` stores: the trimmed input snippet, or the
first 200 code points of the text when the trimmed snippet is empty. -/
def insSnippet (inp : PostInput) : String :=
  if trimSpace inp.Snippet = "" then firstNRunes inp.Text 200 else trimSpace inp.Snippet

/-- The effect of the `ON CONFLICT ... DO UPDATE` arm on the conflicting
row: every mutable field is replaced, id and natural key are kept. -/
def updPost (hash : String → String) (inp : PostInput) (p : Post) : Post :=
  { p with Text := inp.Text, Snippet := insSnippet inp,
           TextHash := textHash hash inp.Text (insSnippet inp),
           URL := trimSpace inp.URL, PostedAt := inp.PostedAt,
           FetchedAt := inp.FetchedAt }

/-- The fresh row the `INSERT` arm appends. -/
def newPost (hash : String → String) (inp : PostInput) (id : Nat) : Post :=
  { ID := id, Source := inp.Source, Channel := inp.Channel,
    ExternalID := inp.ExternalID, Text := inp.Text, Snippet := insSnippet inp,
    TextHash := textHash hash inp.Text (insSnippet inp), URL := trimSpace inp.URL,
    PostedAt := inp.PostedAt, FetchedAt := inp.FetchedAt }

/-- `InsertPost` from `internal/store/store.go`: validate the required
fields, derive the snippet from the text when absent, compute the text
hash, then upsert by the natural key (update in place on conflict, append
a fresh row with the next id otherwise) and return the stored row. -/
def InsertPost (hash : String → String) (st : StoreState) (inp : PostInput) :
    Except String (StoreState × Post) :=
  if trimSpace inp.Source = "" then .error "source is required"
  else if trimSpace inp.Channel = "" then .error "channel is required"
  else if trimSpace inp.ExternalID = "" then .error "external_id is required"
  else if inp.PostedAt = 0 then .error "posted_at is required"
  else if inp.FetchedAt = 0 then .error "fetched_at is required"
  else if trimSpace inp.Snippet = "" ∧ inp.Text = "" then
    .error "snippet is required when text is empty"
  else
    match st.posts.find? (natKeyMatches inp) with
    | some p =>
      .ok ({ st with
              posts := st.posts.map (fun q =>
                if natKeyMatches inp q then updPost hash inp p else q) },
           updPost hash inp p)
    | none =>
      .ok ({ st with
              posts := st.posts ++ [newPost hash inp st.nextId]
              nextId := st.nextId + 1 },
           newPost hash inp st.nextId)

/-- The `ORDER BY text_hash, posted_at, id` comparison of `Deduplicate`. -/
def dedupLe (a b : Post) : Bool :=
  if a.TextHash = b.TextHash then
    if a.PostedAt = b.PostedAt then decide (a.ID ≤ b.ID)
    else decide (a.PostedAt ≤ b.PostedAt)
  else decide (a.TextHash < b.TextHash)

/-- The `dupEntry` record of `Deduplicate`. -/
structure DupEntry where
  dupID : Nat
  keeperID : Nat
  source : String
  channel : String
deriving DecidableEq, Repr

/-- The scan loop of `Deduplicate` over the sorted rows: Go locals
`lastHash` and `keeperID` are the two extra arguments (initially `""` and
`0`); a row whose hash equals `lastHash` becomes a duplicate of the
current keeper, any other row becomes the new keeper. -/
def dedupScan : List Post → String → Nat → List DupEntry
  | [], _, _ => []
  | r :: rest, lastHash, keeperID =>
    if r.TextHash = lastHash then
      ⟨r.ID, keeperID, r.Source, r.Channel⟩ :: dedupScan rest lastHash keeperID
    else
      dedupScan rest r.TextHash r.ID

/-- The per-duplicate deletion body of `Deduplicate`: insert-or-ignore the
also-in link for the keeper, delete the duplicate's score row, delete the
duplicate's post row (which cascades onto `post_also_in`). -/
def applyDup (st : StoreState) (d : DupEntry) : StoreState :=
  let entry : AlsoInRow := ⟨d.keeperID, d.source, d.channel⟩
  let alsoIn1 := if entry ∈ st.alsoIn then st.alsoIn else st.alsoIn ++ [entry]
  { posts := st.posts.filter (fun p => p.ID != d.dupID)
    scores := st.scores.filter (fun sc => sc.PostID != d.dupID)
    alsoIn := alsoIn1.filter (fun a => a.PostID != d.dupID)
    nextId := st.nextId }

/-- `Deduplicate` from `internal/store/store.go`: select all posts ordered
by (text_hash, posted_at, id), scan for duplicates, then delete them one
by one inside the transaction; the returned number is the count of
deleted duplicates. -/
def Deduplicate (st : StoreState) : StoreState × Nat :=
  let sorted := st.posts.mergeSort dedupLe
  let toDelete := dedupScan sorted "" 0
  (toDelete.foldl applyDup st, toDelete.length)

/-- Strict (posted_at, id) order: the tie-break that picks the keeper
inside a text_hash group. -/
def pLt (a b : Post) : Prop :=
  a.PostedAt < b.PostedAt ∨ (a.PostedAt = b.PostedAt ∧ a.ID < b.ID)

/-- `r` is the first row of its text_hash group of `l` in
(posted_at, id) order: it strictly precedes every other row of the group. -/
def isMinOfGroup (l : List Post) (r : Post) : Prop :=
  ∀ q ∈ l, q.TextHash = r.TextHash → q.ID ≠ r.ID → pLt r q

theorem pLt_trans {a b c : Post} (h1 : pLt a b) (h2 : pLt b c) : pLt a c := by
  unfold pLt at h1 h2 ⊢
  omega

theorem pLt_asymm {a b : Post} (h1 : pLt a b) (h2 : pLt b a) : False := by
  unfold pLt at h1 h2
  omega

theorem dedupLe_pLt {a b : Post} (h : dedupLe a b = true)
    (hh : a.TextHash = b.TextHash) (hid : a.ID ≠ b.ID) : pLt a b := by
  unfold dedupLe at h
  rw [if_pos hh] at h
  by_cases hp : a.PostedAt = b.PostedAt
  · rw [if_pos hp, decide_eq_true_eq] at h
    unfold pLt
    have : a.ID ≠ b.ID := hid
    omega
  · rw [if_neg hp, decide_eq_true_eq] at h
    unfold pLt
    omega

theorem dedupLe_hash_le {a b : Post} (h : dedupLe a b = true) :
    a.TextHash ≤ b.TextHash := by
  unfold dedupLe at h
  by_cases hh : a.TextHash = b.TextHash
  · exact le_of_eq hh
  · rw [if_neg hh, decide_eq_true_eq] at h
    exact le_of_lt h

theorem dedupLe_hash_lt {a b : Post} (h : dedupLe a b = true)
    (hne : a.TextHash ≠ b.TextHash) : a.TextHash < b.TextHash := by
  unfold dedupLe at h
  rw [if_neg hne, decide_eq_true_eq] at h
  exact h

theorem dedupLe_total (a b : Post) : (dedupLe a b || dedupLe b a) = true := by
  unfold dedupLe
  by_cases hh : a.TextHash = b.TextHash
  · rw [if_pos hh, if_pos hh.symm]
    by_cases hp : a.PostedAt = b.PostedAt
    · rw [if_pos hp, if_pos hp.symm]
      rcases Nat.le_total a.ID b.ID with h | h <;> simp [h]
    · rw [if_neg hp, if_neg (Ne.symm hp)]
      rcases Nat.le_total a.PostedAt b.PostedAt with h | h <;> simp [h]
  · rw [if_neg hh, if_neg (Ne.symm hh)]
    rcases lt_or_gt_of_ne hh with h | h <;> simp [h]

theorem dedupLe_trans (a b c : Post) (h1 : dedupLe a b = true)
    (h2 : dedupLe b c = true) : dedupLe a c = true := by
  by_cases hab : a.TextHash = b.TextHash <;> by_cases hbc : b.TextHash = c.TextHash
  · have hac : a.TextHash = c.TextHash := hab.trans hbc
    unfold dedupLe at h1 h2 ⊢
    rw [if_pos hab] at h1
    rw [if_pos hbc] at h2
    rw [if_pos hac]
    split_ifs at h1 h2 ⊢ <;> simp only [decide_eq_true_eq] at h1 h2 ⊢ <;> omega
  · have h2' : b.TextHash < c.TextHash := dedupLe_hash_lt h2 hbc
    have hac : a.TextHash < c.TextHash := by rw [hab]; exact h2'
    unfold dedupLe
    rw [if_neg (ne_of_lt hac), decide_eq_true_eq]
    exact hac
  · have h1' : a.TextHash < b.TextHash := dedupLe_hash_lt h1 hab
    have hac : a.TextHash < c.TextHash := by rw [← hbc]; exact h1'
    unfold dedupLe
    rw [if_neg (ne_of_lt hac), decide_eq_true_eq]
    exact hac
  · have h1' : a.TextHash < b.TextHash := dedupLe_hash_lt h1 hab
    have h2' : b.TextHash < c.TextHash := dedupLe_hash_lt h2 hbc
    have hac : a.TextHash < c.TextHash := h1'.trans h2'
    unfold dedupLe
    rw [if_neg (ne_of_lt hac), decide_eq_true_eq]
    exact hac

/-- Spec-side description of the scan from a current keeper `k`: equal-hash
rows become duplicates of `k`, a new hash starts a new keeper. -/
def specAux (k : Post) : List Post → List DupEntry
  | [] => []
  | r :: rest =>
    if r.TextHash = k.TextHash then
      ⟨r.ID, k.ID, r.Source, r.Channel⟩ :: specAux k rest
    else specAux r rest

/-- Spec-side description of the whole scan: the head (if any) is the
first keeper. -/
def specDups : List Post → List DupEntry
  | [] => []
  | k :: rest => specAux k rest

theorem dedupScan_eq_specAux : ∀ (rest : List Post) (k : Post),
    dedupScan rest k.TextHash k.ID = specAux k rest := by
  intro rest
  induction rest with
  | nil => intro k; rfl
  | cons r rest ih =>
    intro k
    by_cases h : r.TextHash = k.TextHash
    · simp only [dedupScan, specAux, if_pos h, ih]
    · simp only [dedupScan, specAux, if_neg h, ih]

theorem dedupScan_eq_specDups (l : List Post) (h : ∀ r ∈ l, r.TextHash ≠ "") :
    dedupScan l "" 0 = specDups l := by
  cases l with
  | nil => rfl
  | cons r rest =>
    have hr : r.TextHash ≠ "" := h r (List.mem_cons_self r rest)
    simp only [dedupScan, specDups, if_neg hr, dedupScan_eq_specAux]

theorem specAux_dupID_sublist : ∀ (rest : List Post) (k : Post),
    ((specAux k rest).map DupEntry.dupID).Sublist (rest.map Post.ID) := by
  intro rest
  induction rest with
  | nil => intro k; simp [specAux]
  | cons r rest ih =>
    intro k
    by_cases h : r.TextHash = k.TextHash
    · simp only [specAux, if_pos h, List.map_cons]
      exact List.cons_sublist_cons.mpr (ih k)
    · simp only [specAux, if_neg h, List.map_cons]
      exact (ih r).trans (List.sublist_cons_self _ _)

theorem specDups_dupID_sublist (l : List Post) :
    ((specDups l).map DupEntry.dupID).Sublist (l.map Post.ID) := by
  cases l with
  | nil => simp [specDups]
  | cons k rest =>
    simp only [specDups, List.map_cons]
    exact (specAux_dupID_sublist rest k).trans (List.sublist_cons_self _ _)

theorem specDups_nil_of_nodup_hashes :
    ∀ (l : List Post), (l.map Post.TextHash).Nodup → specDups l = [] := by
  have haux : ∀ (rest : List Post) (k : Post),
      ((k :: rest).map Post.TextHash).Nodup → specAux k rest = [] := by
    intro rest
    induction rest with
    | nil => intro k _; rfl
    | cons r rest ih =>
      intro k hnd
      rw [List.map_cons, List.nodup_cons] at hnd
      have hne : r.TextHash ≠ k.TextHash := by
        intro h
        apply hnd.1
        rw [List.map_cons, h]
        exact List.mem_cons_self _ _
      simp only [specAux, if_neg hne]
      apply ih r
      rw [List.map_cons]
      exact hnd.2
  intro l hnd
  cases l with
  | nil => rfl
  | cons k rest => exact haux rest k hnd

/-- Keeper/duplicate characterization for a scan started at keeper `k` over
a sorted, id-distinct segment: `k` is the first row of its group; it is
never deleted; a later row is deleted exactly when it is not the first row
of its group; and every duplicate entry records a removed row together
with the id of the first row of its group. -/
theorem specAux_master : ∀ (rest : List Post) (k : Post),
    List.Pairwise (fun a b => dedupLe a b = true) (k :: rest) →
    ((k :: rest).map Post.ID).Nodup →
    (isMinOfGroup (k :: rest) k ∧
      k.ID ∉ (specAux k rest).map DupEntry.dupID ∧
      (∀ r ∈ rest,
        (r.ID ∈ (specAux k rest).map DupEntry.dupID ↔ ¬ isMinOfGroup (k :: rest) r)) ∧
      (∀ e ∈ specAux k rest,
        ∃ r, r ∈ rest ∧ e.dupID = r.ID ∧ e.source = r.Source ∧ e.channel = r.Channel ∧
          ∃ kr, kr ∈ k :: rest ∧ e.keeperID = kr.ID ∧ kr.TextHash = r.TextHash ∧
            isMinOfGroup (k :: rest) kr)) := by
  intro rest
  induction rest with
  | nil =>
    intro k _ _
    refine ⟨?_, by simp [specAux], by simp, by simp [specAux]⟩
    intro q hq hh hid
    rw [List.mem_singleton] at hq
    subst hq
    exact absurd rfl hid
  | cons r rest' ih =>
    intro k h1 h2
    have hkall : ∀ x ∈ r :: rest', dedupLe k x = true := (List.pairwise_cons.mp h1).1
    have h1' : List.Pairwise (fun a b => dedupLe a b = true) (r :: rest') :=
      (List.pairwise_cons.mp h1).2
    have hkr : dedupLe k r = true := hkall r (List.mem_cons_self r rest')
    have hkid : k.ID ∉ (r :: rest').map Post.ID := by
      have := h2
      rw [List.map_cons, List.nodup_cons] at this
      exact this.1
    have h2' : ((r :: rest').map Post.ID).Nodup := by
      have := h2
      rw [List.map_cons, List.nodup_cons] at this
      exact this.2
    have hkidr : k.ID ≠ r.ID := by
      intro h
      apply hkid
      rw [List.map_cons, h]
      exact List.mem_cons_self _ _
    have hrid : r.ID ∉ rest'.map Post.ID := by
      have := h2'
      rw [List.map_cons, List.nodup_cons] at this
      exact this.1
    by_cases hEq : r.TextHash = k.TextHash
    · -- r is a duplicate of keeper k
      have hklt : pLt k r := dedupLe_pLt hkr hEq.symm hkidr
      have hsub : (k :: rest').Sublist (k :: r :: rest') :=
        List.cons_sublist_cons.mpr (List.sublist_cons_self r rest')
      have h1'' : List.Pairwise (fun a b => dedupLe a b = true) (k :: rest') :=
        h1.sublist hsub
      have h2'' : ((k :: rest').map Post.ID).Nodup :=
        (hsub.map Post.ID).nodup h2
      obtain ⟨ihMin, ihNotK, ihIff, ihProv⟩ := ih k h1'' h2''
      -- transfer of isMinOfGroup between the small and the big segment
      have hbig_k : isMinOfGroup (k :: r :: rest') k := by
        intro q hq hh hid
        rcases List.mem_cons.mp hq with hq1 | hq2
        · subst hq1; exact absurd rfl hid
        · rcases List.mem_cons.mp hq2 with hq3 | hq4
          · subst hq3; exact hklt
          · exact ihMin q (List.mem_cons.mpr (Or.inr hq4)) hh hid
      have hsmall_of_big : ∀ x, isMinOfGroup (k :: r :: rest') x →
          isMinOfGroup (k :: rest') x := by
        intro x hx q hq hh hid
        apply hx q _ hh hid
        rcases List.mem_cons.mp hq with hq1 | hq2
        · subst hq1; exact List.mem_cons_self _ _
        · exact List.mem_cons.mpr (Or.inr (List.mem_cons.mpr (Or.inr hq2)))
      have hbig_of_small : ∀ x ∈ k :: rest', isMinOfGroup (k :: rest') x →
          isMinOfGroup (k :: r :: rest') x := by
        intro x hxmem hx q hq hh hid
        rcases List.mem_cons.mp hq with hq1 | hq2
        · subst hq1; exact hx q (List.mem_cons_self _ _) hh hid
        · rcases List.mem_cons.mp hq2 with hq3 | hq4
          · -- q = r: x's group contains r, so x's hash is k's hash
            subst hq3
            by_cases hxk : x.ID = k.ID
            · -- x is k itself (ids are unique in the segment)
              have hxkk : x = k := by
                rcases List.mem_cons.mp hxmem with h | h
                · exact h
                · exfalso
                  apply hkid
                  rw [List.map_cons]
                  refine List.mem_cons.mpr (Or.inr ?_)
                  rw [← hxk]
                  exact List.mem_map_of_mem Post.ID h
              subst hxkk
              exact hklt
            · -- x ≠ k: the small minimality gives pLt x k, then pLt x r
              have hxh : k.TextHash = x.TextHash := by rw [← hh, hEq]
              have h5 : pLt x k :=
                hx k (List.mem_cons_self _ _) hxh (fun h => hxk h.symm)
              exact pLt_trans h5 hklt
          · exact hx q (List.mem_cons.mpr (Or.inr hq4)) hh hid
      have hnotmin_r : ¬ isMinOfGroup (k :: r :: rest') r := by
        intro hmin
        have := hmin k (List.mem_cons_self _ _) hEq.symm (Ne.symm hkidr).symm
        exact pLt_asymm hklt this
      refine ⟨hbig_k, ?_, ?_, ?_⟩
      · -- k.ID not among the duplicate ids
        simp only [specAux, if_pos hEq, List.map_cons, List.mem_cons]
        intro h
        rcases h with h | h
        · exact hkidr h
        · exact ihNotK h
      · -- iff characterization for every row after k
        intro x hx
        simp only [specAux, if_pos hEq, List.map_cons, List.mem_cons]
        rcases List.mem_cons.mp hx with hx1 | hx2
        · subst hx1
          constructor
          · intro _; exact hnotmin_r
          · intro _; exact Or.inl rfl
        · have hxne : x.ID ≠ r.ID := by
            intro h
            apply hrid
            rw [← h]
            exact List.mem_map_of_mem Post.ID hx2
          constructor
          · intro h hmin
            rcases h with h | h
            · exact hxne h
            · exact (ihIff x hx2).mp h (hsmall_of_big x hmin)
          · intro hmin
            refine Or.inr ?_
            apply (ihIff x hx2).mpr
            intro hsmall
            exact hmin (hbig_of_small x (List.mem_cons.mpr (Or.inr hx2)) hsmall)
      · -- provenance of every duplicate entry
        intro e he
        simp only [specAux, if_pos hEq] at he
        rcases List.mem_cons.mp he with he1 | he2
        · subst he1
          refine ⟨r, List.mem_cons_self _ _, rfl, rfl, rfl,
            k, List.mem_cons_self _ _, rfl, hEq.symm, hbig_k⟩
        · obtain ⟨rr, hrr, he_id, he_src, he_ch, kr, hkrm, he_kid, hkr_hash, hkr_min⟩ :=
            ihProv e he2
          refine ⟨rr, List.mem_cons.mpr (Or.inr hrr), he_id, he_src, he_ch,
            kr, ?_, he_kid, hkr_hash, ?_⟩
          · rcases List.mem_cons.mp hkrm with h | h
            · subst h; exact List.mem_cons_self _ _
            · exact List.mem_cons.mpr (Or.inr (List.mem_cons.mpr (Or.inr h)))
          · exact hbig_of_small kr hkrm hkr_min
    · -- r starts a new group
      have hklt : k.TextHash < r.TextHash :=
        dedupLe_hash_lt hkr (fun h => hEq h.symm)
      have hhash_all : ∀ x ∈ r :: rest', k.TextHash < x.TextHash := by
        intro x hx
        rcases List.mem_cons.mp hx with hx1 | hx2
        · subst hx1; exact hklt
        · have hrx : dedupLe r x = true := (List.pairwise_cons.mp h1').1 x hx2
          exact lt_of_lt_of_le hklt (dedupLe_hash_le hrx)
      obtain ⟨ihMin, ihNotK, ihIff, ihProv⟩ := ih r h1' h2'
      -- k is alone in its group, so every transfer is trivial
      have hbig_k : isMinOfGroup (k :: r :: rest') k := by
        intro q hq hh hid
        rcases List.mem_cons.mp hq with hq1 | hq2
        · subst hq1; exact absurd rfl hid
        · exact absurd hh (ne_of_gt (hhash_all q hq2))
      have htransfer : ∀ x ∈ r :: rest',
          (isMinOfGroup (k :: r :: rest') x ↔ isMinOfGroup (r :: rest') x) := by
        intro x hxmem
        constructor
        · intro hx q hq hh hid
          exact hx q (List.mem_cons.mpr (Or.inr hq)) hh hid
        · intro hx q hq hh hid
          rcases List.mem_cons.mp hq with hq1 | hq2
          · exfalso
            have h5 : k.TextHash < x.TextHash := hhash_all x hxmem
            rw [← hq1, hh] at h5
            exact lt_irrefl _ h5
          · exact hx q hq2 hh hid
      refine ⟨hbig_k, ?_, ?_, ?_⟩
      · simp only [specAux, if_neg hEq]
        intro h
        have hmem := (specAux_dupID_sublist rest' r).mem h
        apply hkid
        rw [List.map_cons]
        exact List.mem_cons.mpr (Or.inr hmem)
      · intro x hx
        simp only [specAux, if_neg hEq]
        rcases List.mem_cons.mp hx with hx1 | hx2
        · rw [hx1]
          constructor
          · intro h
            exact absurd h ihNotK
          · intro hmin
            exact (hmin ((htransfer r (List.mem_cons_self r rest')).mpr ihMin)).elim
        · constructor
          · intro h hmin
            exact (ihIff x hx2).mp h
              ((htransfer x (List.mem_cons.mpr (Or.inr hx2))).mp hmin)
          · intro hmin
            apply (ihIff x hx2).mpr
            intro hsmall
            exact hmin ((htransfer x (List.mem_cons.mpr (Or.inr hx2))).mpr hsmall)
      · intro e he
        simp only [specAux, if_neg hEq] at he
        obtain ⟨rr, hrr, he_id, he_src, he_ch, kr, hkrm, he_kid, hkr_hash, hkr_min⟩ :=
          ihProv e he
        refine ⟨rr, List.mem_cons.mpr (Or.inr hrr),
          he_id, he_src, he_ch, kr, List.mem_cons.mpr (Or.inr hkrm), he_kid, hkr_hash,
          (htransfer kr hkrm).mpr hkr_min⟩

theorem specDups_master (l : List Post)
    (h1 : List.Pairwise (fun a b => dedupLe a b = true) l)
    (h2 : (l.map Post.ID).Nodup) :
    (∀ r ∈ l, (r.ID ∈ (specDups l).map DupEntry.dupID ↔ ¬ isMinOfGroup l r)) ∧
    (∀ e ∈ specDups l,
      ∃ r, r ∈ l ∧ e.dupID = r.ID ∧ e.source = r.Source ∧ e.channel = r.Channel ∧
        ∃ kr, kr ∈ l ∧ e.keeperID = kr.ID ∧ kr.TextHash = r.TextHash ∧
          isMinOfGroup l kr) := by
  cases l with
  | nil => exact ⟨by simp, by simp [specDups]⟩
  | cons k rest =>
    obtain ⟨hmin_k, hnot_k, hiff, hprov⟩ := specAux_master rest k h1 h2
    constructor
    · intro r hr
      rcases List.mem_cons.mp hr with hr1 | hr2
      · rw [hr1]
        simp only [specDups]
        constructor
        · intro h
          exact absurd h hnot_k
        · intro hm
          exact (hm hmin_k).elim
      · exact hiff r hr2
    · intro e he
      obtain ⟨r, hr, h_id, h_src, h_ch, kr, hkr, h_kid, h_hash, h_min⟩ := hprov e he
      exact ⟨r, List.mem_cons.mpr (Or.inr hr), h_id, h_src, h_ch,
        kr, hkr, h_kid, h_hash, h_min⟩

theorem isMinOfGroup_congr {l1 l2 : List Post} (h : ∀ q, q ∈ l1 ↔ q ∈ l2)
    (r : Post) : isMinOfGroup l1 r ↔ isMinOfGroup l2 r := by
  constructor
  · intro hx q hq hh hid
    exact hx q ((h q).mpr hq) hh hid
  · intro hx q hq hh hid
    exact hx q ((h q).mp hq) hh hid

theorem foldl_applyDup_posts : ∀ (ds : List DupEntry) (st : StoreState),
    (ds.foldl applyDup st).posts =
      st.posts.filter (fun p => decide (p.ID ∉ ds.map DupEntry.dupID)) := by
  intro ds
  induction ds with
  | nil =>
    intro st
    symm
    apply List.filter_eq_self.mpr
    intro a _
    simp
  | cons d ds ih =>
    intro st
    rw [List.foldl_cons, ih]
    have h : (applyDup st d).posts = st.posts.filter (fun p => p.ID != d.dupID) := rfl
    rw [h, List.filter_filter]
    apply List.filter_congr
    intro p _
    by_cases h1 : p.ID = d.dupID
    · simp [h1]
    · by_cases h2 : p.ID ∈ ds.map DupEntry.dupID
      · simp [h1, h2]
      · simp [h1, h2]

theorem foldl_applyDup_scores : ∀ (ds : List DupEntry) (st : StoreState),
    (ds.foldl applyDup st).scores =
      st.scores.filter (fun sc => decide (sc.PostID ∉ ds.map DupEntry.dupID)) := by
  intro ds
  induction ds with
  | nil =>
    intro st
    symm
    apply List.filter_eq_self.mpr
    intro a _
    simp
  | cons d ds ih =>
    intro st
    rw [List.foldl_cons, ih]
    have h : (applyDup st d).scores =
        st.scores.filter (fun sc => sc.PostID != d.dupID) := rfl
    rw [h, List.filter_filter]
    apply List.filter_congr
    intro p _
    by_cases h1 : p.PostID = d.dupID
    · simp [h1]
    · by_cases h2 : p.PostID ∈ ds.map DupEntry.dupID
      · simp [h1, h2]
      · simp [h1, h2]

theorem foldl_applyDup_nextId : ∀ (ds : List DupEntry) (st : StoreState),
    (ds.foldl applyDup st).nextId = st.nextId := by
  intro ds
  induction ds with
  | nil => intro st; rfl
  | cons d ds ih => intro st; rw [List.foldl_cons, ih]; rfl

theorem foldl_applyDup_alsoIn : ∀ (ds : List DupEntry) (st : StoreState),
    ((ds.foldl applyDup st).alsoIn.length ≤ st.alsoIn.length + ds.length) ∧
    (∀ a ∈ (ds.foldl applyDup st).alsoIn,
      a ∈ st.alsoIn ∨ ∃ d, d ∈ ds ∧ a = ⟨d.keeperID, d.source, d.channel⟩) := by
  intro ds
  induction ds with
  | nil =>
    intro st
    exact ⟨by rw [List.foldl_nil]; omega, fun a ha => Or.inl ha⟩
  | cons d ds ih =>
    intro st
    rw [List.foldl_cons]
    have hlen : (applyDup st d).alsoIn.length ≤ st.alsoIn.length + 1 := by
      show (((if (⟨d.keeperID, d.source, d.channel⟩ : AlsoInRow) ∈ st.alsoIn then
          st.alsoIn else st.alsoIn ++ [⟨d.keeperID, d.source, d.channel⟩]).filter
            (fun a => a.PostID != d.dupID))).length ≤ st.alsoIn.length + 1
      calc (((if (⟨d.keeperID, d.source, d.channel⟩ : AlsoInRow) ∈ st.alsoIn then
            st.alsoIn else st.alsoIn ++ [⟨d.keeperID, d.source, d.channel⟩]).filter
              (fun a => a.PostID != d.dupID))).length
          ≤ (if (⟨d.keeperID, d.source, d.channel⟩ : AlsoInRow) ∈ st.alsoIn then
              st.alsoIn else st.alsoIn ++ [⟨d.keeperID, d.source, d.channel⟩]).length :=
            List.length_filter_le _ _
        _ ≤ st.alsoIn.length + 1 := by
            split_ifs
            · omega
            · rw [List.length_append]
              simp
    have hmem : ∀ a ∈ (applyDup st d).alsoIn,
        a ∈ st.alsoIn ∨ a = ⟨d.keeperID, d.source, d.channel⟩ := by
      intro a ha
      have ha2 : a ∈ (if (⟨d.keeperID, d.source, d.channel⟩ : AlsoInRow) ∈ st.alsoIn
          then st.alsoIn else st.alsoIn ++ [⟨d.keeperID, d.source, d.channel⟩]) :=
        (List.mem_filter.mp ha).1
      split_ifs at ha2
      · exact Or.inl ha2
      · rcases List.mem_append.mp ha2 with h | h
        · exact Or.inl h
        · exact Or.inr (List.mem_singleton.mp h)
    obtain ⟨ihlen, ihmem⟩ := ih (applyDup st d)
    constructor
    · calc (ds.foldl applyDup (applyDup st d)).alsoIn.length
          ≤ (applyDup st d).alsoIn.length + ds.length := ihlen
        _ ≤ st.alsoIn.length + 1 + ds.length := by omega
        _ = st.alsoIn.length + (d :: ds).length := by
            rw [List.length_cons]
            omega
    · intro a ha
      rcases ihmem a ha with h | ⟨dd, hdd, he⟩
      · rcases hmem a h with h2 | h2
        · exact Or.inl h2
        · exact Or.inr ⟨d, List.mem_cons_self _ _, h2⟩
      · exact Or.inr ⟨dd, List.mem_cons.mpr (Or.inr hdd), he⟩

theorem countP_eq_key_le_one {α β : Type} [DecidableEq β] (f : α → β) (l : List α)
    (b : β) (h : (l.map f).Nodup) : l.countP (fun x => decide (f x = b)) ≤ 1 := by
  have h1 : l.countP (fun x => decide (f x = b)) =
      (l.map f).countP (fun y => decide (y = b)) := by
    rw [List.countP_map]
    rfl
  have h2 : (l.map f).countP (fun y => decide (y = b)) = List.count b (l.map f) := by
    rw [List.count_eq_countP]
    apply List.countP_congr
    intro s _
    simp [beq_iff_eq]
  rw [h1, h2]
  exact List.nodup_iff_count_le_one.mp h b

theorem countP_mem_eq_length (L : List Nat) (ds : List Nat) (hL : L.Nodup)
    (hds : ds.Nodup) (hsub : ∀ d ∈ ds, d ∈ L) :
    L.countP (fun x => decide (x ∈ ds)) = ds.length := by
  have hperm : (L.filter (fun x => decide (x ∈ ds))).Perm ds := by
    apply (List.perm_ext_iff_of_nodup (hL.filter _) hds).mpr
    intro a
    rw [List.mem_filter]
    constructor
    · rintro ⟨_, h⟩
      exact of_decide_eq_true h
    · intro h
      exact ⟨hsub a h, decide_eq_true h⟩
  rw [List.countP_eq_length_filter]
  exact hperm.length_eq

theorem filter_not_mem_length (l : List Post) (ds : List Nat)
    (hl : (l.map Post.ID).Nodup) (hds : ds.Nodup)
    (hsub : ∀ d ∈ ds, d ∈ l.map Post.ID) :
    (l.filter (fun p => decide (p.ID ∉ ds))).length + ds.length = l.length := by
  have h2 : l.countP (fun p => decide (p.ID ∈ ds)) = ds.length := by
    have h0 := countP_mem_eq_length (l.map Post.ID) ds hl hds hsub
    rw [List.countP_map] at h0
    exact h0
  have h3 := List.length_eq_countP_add_countP (fun p => decide (p.ID ∈ ds)) l
  have h4 : l.countP (fun a => decide (¬ (decide (a.ID ∈ ds)) = true)) =
      (l.filter (fun p => decide (p.ID ∉ ds))).length := by
    rw [← List.countP_eq_length_filter]
    apply List.countP_congr
    intro a _
    by_cases h : a.ID ∈ ds <;> simp [h]
  omega

/-- Full characterization of one `Deduplicate` pass over a store whose post
ids are unique and whose text hashes are non-empty (both invariants are
established by `InsertPost`, which assigns fresh ids and stores a hash
image that is never the empty string). -/
theorem Deduplicate_char (st : StoreState)
    (hids : (st.posts.map Post.ID).Nodup)
    (hne : ∀ r ∈ st.posts, r.TextHash ≠ "") :
    ((Deduplicate st).1.posts.length + (Deduplicate st).2 = st.posts.length) ∧
    ((Deduplicate st).1.posts.Sublist st.posts) ∧
    (((Deduplicate st).1.posts.map Post.ID).Nodup) ∧
    (((Deduplicate st).1.posts.map Post.TextHash).Nodup) ∧
    (∀ r ∈ st.posts, (r ∈ (Deduplicate st).1.posts ↔ isMinOfGroup st.posts r)) ∧
    (∀ sc, sc ∈ (Deduplicate st).1.scores ↔
      (sc ∈ st.scores ∧
        ¬ ∃ p, p ∈ st.posts ∧ p.ID = sc.PostID ∧ p ∉ (Deduplicate st).1.posts)) ∧
    ((Deduplicate st).1.alsoIn.length ≤ st.alsoIn.length + (Deduplicate st).2) ∧
    (∀ a ∈ (Deduplicate st).1.alsoIn, a ∈ st.alsoIn ∨
      ∃ dup, dup ∈ st.posts ∧ dup ∉ (Deduplicate st).1.posts ∧
        a.Source = dup.Source ∧ a.Channel = dup.Channel ∧
        ∃ kr, kr ∈ (Deduplicate st).1.posts ∧ a.PostID = kr.ID ∧
          kr.TextHash = dup.TextHash) := by
  have hperm : (st.posts.mergeSort dedupLe).Perm st.posts :=
    List.mergeSort_perm st.posts dedupLe
  have hpair : List.Pairwise (fun a b => dedupLe a b = true)
      (st.posts.mergeSort dedupLe) :=
    List.sorted_mergeSort dedupLe_trans dedupLe_total st.posts
  have hSids : ((st.posts.mergeSort dedupLe).map Post.ID).Nodup :=
    ((hperm.map Post.ID).nodup_iff).mpr hids
  have hSne : ∀ r ∈ st.posts.mergeSort dedupLe, r.TextHash ≠ "" :=
    fun r hr => hne r (hperm.mem_iff.mp hr)
  have hscan : dedupScan (st.posts.mergeSort dedupLe) "" 0 =
      specDups (st.posts.mergeSort dedupLe) :=
    dedupScan_eq_specDups _ hSne
  obtain ⟨mIff, mProv⟩ := specDups_master (st.posts.mergeSort dedupLe) hpair hSids
  have hres1 : (Deduplicate st).1 =
      (specDups (st.posts.mergeSort dedupLe)).foldl applyDup st := by
    simp only [Deduplicate, hscan]
  have hres2 : (Deduplicate st).2 =
      (specDups (st.posts.mergeSort dedupLe)).length := by
    simp only [Deduplicate, hscan]
  have hposts : (Deduplicate st).1.posts = st.posts.filter (fun p =>
      decide (p.ID ∉ (specDups (st.posts.mergeSort dedupLe)).map DupEntry.dupID)) := by
    rw [hres1, foldl_applyDup_posts]
  have hdsub : ((specDups (st.posts.mergeSort dedupLe)).map DupEntry.dupID).Sublist
      ((st.posts.mergeSort dedupLe).map Post.ID) :=
    specDups_dupID_sublist _
  have hdnod : ((specDups (st.posts.mergeSort dedupLe)).map DupEntry.dupID).Nodup :=
    hdsub.nodup hSids
  have hdmem : ∀ d ∈ (specDups (st.posts.mergeSort dedupLe)).map DupEntry.dupID,
      d ∈ st.posts.map Post.ID := by
    intro d hd
    exact (hperm.map Post.ID).mem_iff.mp (hdsub.subset hd)
  have hmem_iff : ∀ r ∈ st.posts, (r ∈ (Deduplicate st).1.posts ↔
      r.ID ∉ (specDups (st.posts.mergeSort dedupLe)).map DupEntry.dupID) := by
    intro r hr
    rw [hposts, List.mem_filter]
    constructor
    · rintro ⟨_, h⟩
      exact of_decide_eq_true h
    · intro h
      exact ⟨hr, decide_eq_true h⟩
  have hmin_iff : ∀ r ∈ st.posts,
      (r ∈ (Deduplicate st).1.posts ↔ isMinOfGroup st.posts r) := by
    intro r hr
    rw [hmem_iff r hr]
    have h5 := mIff r (hperm.mem_iff.mpr hr)
    have h6 : isMinOfGroup (st.posts.mergeSort dedupLe) r ↔
        isMinOfGroup st.posts r :=
      isMinOfGroup_congr (fun q => hperm.mem_iff) r
    have h7 := not_congr h5
    rw [not_not, h6] at h7
    exact h7
  have hsub_posts : (Deduplicate st).1.posts.Sublist st.posts := by
    rw [hposts]
    exact List.filter_sublist _
  have hids_res : ((Deduplicate st).1.posts.map Post.ID).Nodup :=
    ((hsub_posts.map Post.ID)).nodup hids
  refine ⟨?_, hsub_posts, hids_res, ?_, hmin_iff, ?_, ?_, ?_⟩
  · -- length accounting
    rw [hposts, hres2]
    have h0 := filter_not_mem_length st.posts
      ((specDups (st.posts.mergeSort dedupLe)).map DupEntry.dupID) hids hdnod hdmem
    rw [List.length_map] at h0
    exact h0
  · -- no two survivors share a hash
    have hpw_id : (Deduplicate st).1.posts.Pairwise (fun a b => a.ID ≠ b.ID) :=
      List.pairwise_map.mp hids_res
    apply List.pairwise_map.mpr
    apply hpw_id.imp_of_mem
    intro a b ha hb hidne hhash
    have ha2 : a ∈ st.posts := hsub_posts.subset ha
    have hb2 : b ∈ st.posts := hsub_posts.subset hb
    have hamin : isMinOfGroup st.posts a := (hmin_iff a ha2).mp ha
    have hbmin : isMinOfGroup st.posts b := (hmin_iff b hb2).mp hb
    have h8 : pLt a b := hamin b hb2 hhash.symm (Ne.symm hidne)
    have h9 : pLt b a := hbmin a ha2 hhash (hidne)
    exact pLt_asymm h8 h9
  · -- score rows of removed posts are deleted, others survive
    intro sc
    have hscores : (Deduplicate st).1.scores = st.scores.filter (fun s =>
        decide (s.PostID ∉
          (specDups (st.posts.mergeSort dedupLe)).map DupEntry.dupID)) := by
      rw [hres1, foldl_applyDup_scores]
    rw [hscores, List.mem_filter]
    have hkey : (sc.PostID ∈
        (specDups (st.posts.mergeSort dedupLe)).map DupEntry.dupID) ↔
        ∃ p, p ∈ st.posts ∧ p.ID = sc.PostID ∧ p ∉ (Deduplicate st).1.posts := by
      constructor
      · intro h
        obtain ⟨p, hp, hpid⟩ := List.mem_map.mp (hdmem sc.PostID h)
        refine ⟨p, hp, hpid, ?_⟩
        intro hpin
        exact (hmem_iff p hp).mp hpin (hpid ▸ h)
      · rintro ⟨p, hp, hpid, hpnot⟩
        by_contra h
        apply hpnot
        apply (hmem_iff p hp).mpr
        rw [hpid]
        exact h
    constructor
    · rintro ⟨hs, hpred⟩
      have := of_decide_eq_true hpred
      exact ⟨hs, fun hex => this (hkey.mpr hex)⟩
    · rintro ⟨hs, hnex⟩
      refine ⟨hs, decide_eq_true ?_⟩
      intro h
      exact hnex (hkey.mp h)
  · -- at most one new also-in row per removed duplicate
    rw [hres1, hres2]
    exact (foldl_applyDup_alsoIn _ st).1
  · -- every new also-in row is (keeper id, dup source, dup channel)
    intro a ha
    rw [hres1] at ha
    rcases (foldl_applyDup_alsoIn _ st).2 a ha with h | ⟨d, hd, hae⟩
    · exact Or.inl h
    · right
      obtain ⟨r, hr, h_id, h_src, h_ch, kr, hkr, h_kid, h_hash, h_min⟩ := mProv d hd
      have hrS : r ∈ st.posts := hperm.mem_iff.mp hr
      have hkrS : kr ∈ st.posts := hperm.mem_iff.mp hkr
      have hrdup : r.ID ∈ (specDups (st.posts.mergeSort dedupLe)).map DupEntry.dupID := by
        rw [← h_id]
        exact List.mem_map_of_mem DupEntry.dupID hd
      have hrnot : r ∉ (Deduplicate st).1.posts := by
        intro hrin
        exact (hmem_iff r hrS).mp hrin hrdup
      have hkrin : kr ∈ (Deduplicate st).1.posts := by
        apply (hmin_iff kr hkrS).mpr
        exact (isMinOfGroup_congr (fun q => hperm.mem_iff) kr).mp h_min
      refine ⟨r, hrS, hrnot, ?_, ?_, kr, hkrin, ?_, h_hash⟩
      · rw [hae]
        exact h_src
      · rw [hae]
        exact h_ch
      · rw [hae]
        exact h_kid

/-- The dedup contract of the claim: the post count drops by exactly the
returned count; survivors are a subset of the original rows and no two of
them share a text_hash; a row survives exactly when it is the first row of
its equal-text_hash run under (posted_at, id) order — the keeper; the score
rows of removed posts (and only those) are deleted; and at most one
AlsoIn link is inserted per removed duplicate, each of the form
(keeper id, duplicate source, duplicate channel) with the keeper sharing
the duplicate's text_hash. -/
def DedupSpec (st : StoreState) : Prop :=
  ((Deduplicate st).1.posts.length + (Deduplicate st).2 = st.posts.length) ∧
  ((Deduplicate st).1.posts.Sublist st.posts) ∧
  (((Deduplicate st).1.posts.map Post.TextHash).Nodup) ∧
  (∀ r ∈ st.posts, (r ∈ (Deduplicate st).1.posts ↔ isMinOfGroup st.posts r)) ∧
  (∀ sc, sc ∈ (Deduplicate st).1.scores ↔
    (sc ∈ st.scores ∧
      ¬ ∃ p, p ∈ st.posts ∧ p.ID = sc.PostID ∧ p ∉ (Deduplicate st).1.posts)) ∧
  ((Deduplicate st).1.alsoIn.length ≤ st.alsoIn.length + (Deduplicate st).2) ∧
  (∀ a ∈ (Deduplicate st).1.alsoIn, a ∈ st.alsoIn ∨
    ∃ dup, dup ∈ st.posts ∧ dup ∉ (Deduplicate st).1.posts ∧
      a.Source = dup.Source ∧ a.Channel = dup.Channel ∧
      ∃ kr, kr ∈ (Deduplicate st).1.posts ∧ a.PostID = kr.ID ∧
        kr.TextHash = dup.TextHash)

/-- C1: for every store state with unique post ids and non-empty text
hashes, one `Deduplicate` pass satisfies the dedup contract `DedupSpec`. -/
theorem claim_C1_deduplicate (st : StoreState)
    (hids : (st.posts.map Post.ID).Nodup)
    (hne : ∀ r ∈ st.posts, r.TextHash ≠ "") :
    DedupSpec st := by
  obtain ⟨c1, c2, _, c4, c5, c6, c7, c8⟩ := Deduplicate_char st hids hne
  exact ⟨c1, c2, c4, c5, c6, c7, c8⟩

/-- A small store with a duplicated text hash, one score on the duplicate
and one unrelated post; used by the concrete dedup witnesses. -/
def c1Store : StoreState :=
  { posts :=
      [{ ID := 1, Source := "telegram", Channel := "chan1", ExternalID := "1",
         Text := "same content", Snippet := "same content", TextHash := "h1",
         URL := "", PostedAt := 100, FetchedAt := 101 },
       { ID := 2, Source := "rss", Channel := "chan2", ExternalID := "2",
         Text := "same content", Snippet := "same content", TextHash := "h1",
         URL := "", PostedAt := 200, FetchedAt := 201 },
       { ID := 3, Source := "rss", Channel := "chan3", ExternalID := "3",
         Text := "other", Snippet := "other", TextHash := "h2",
         URL := "", PostedAt := 150, FetchedAt := 151 }]
    scores := [{ PostID := 2, Score := 5, Labels := [], Tier := "skim",
                 ScoredAt := 300, Explanation := "" }]
    alsoIn := []
    nextId := 4 }

theorem claim_C1_deduplicate_witness :
    ((c1Store.posts.map Post.ID).Nodup ∧
      ∀ r ∈ c1Store.posts, r.TextHash ≠ "") ∧
    DedupSpec c1Store :=
  ⟨⟨by decide, by decide⟩, claim_C1_deduplicate c1Store (by decide) (by decide)⟩

/-- A second `Deduplicate` pass on the unchanged result of a first pass
removes nothing and returns 0. -/
theorem Deduplicate_idem (st : StoreState)
    (hids : (st.posts.map Post.ID).Nodup)
    (hne : ∀ r ∈ st.posts, r.TextHash ≠ "") :
    Deduplicate (Deduplicate st).1 = ((Deduplicate st).1, 0) := by
  obtain ⟨_, hsub, _, hhash1, _⟩ := Deduplicate_char st hids hne
  have hperm1 : ((Deduplicate st).1.posts.mergeSort dedupLe).Perm
      (Deduplicate st).1.posts :=
    List.mergeSort_perm _ dedupLe
  have hhashS : (((Deduplicate st).1.posts.mergeSort dedupLe).map
      Post.TextHash).Nodup :=
    ((hperm1.map Post.TextHash).nodup_iff).mpr hhash1
  have hneS : ∀ r ∈ (Deduplicate st).1.posts.mergeSort dedupLe,
      r.TextHash ≠ "" := by
    intro r hr
    exact hne r (hsub.subset (hperm1.mem_iff.mp hr))
  have hscan : dedupScan ((Deduplicate st).1.posts.mergeSort dedupLe) "" 0 = [] := by
    rw [dedupScan_eq_specDups _ hneS]
    exact specDups_nil_of_nodup_hashes _ hhashS
  generalize (Deduplicate st).1 = st1 at hscan ⊢
  simp only [Deduplicate, hscan, List.foldl_nil, List.length_nil]

/-- The natural key of a post row. -/
def natKey (p : Post) : String × String × String :=
  (p.Source, p.Channel, p.ExternalID)

theorem natKeyMatches_iff (inp : PostInput) (p : Post) :
    natKeyMatches inp p = true ↔
      natKey p = (inp.Source, inp.Channel, inp.ExternalID) := by
  simp [natKeyMatches, natKey, Prod.ext_iff, and_assoc]

theorem natKeyMatches_updPost (hash : String → String) (inp : PostInput)
    (p : Post) : natKeyMatches inp (updPost hash inp p) = natKeyMatches inp p := by
  rfl

theorem natKeyMatches_newPost (hash : String → String) (inp : PostInput)
    (id : Nat) : natKeyMatches inp (newPost hash inp id) = true := by
  simp [natKeyMatches, newPost]

theorem countP_natKey_map_upd (hash : String → String) (inp : PostInput)
    (p : Post) (hp : natKeyMatches inp p = true) (l : List Post) :
    (l.map (fun q => if natKeyMatches inp q then updPost hash inp p else q)).countP
        (natKeyMatches inp) = l.countP (natKeyMatches inp) := by
  rw [List.countP_map]
  apply List.countP_congr
  intro q _
  by_cases h : natKeyMatches inp q = true
  · simp only [Function.comp_apply]
    rw [if_pos h, natKeyMatches_updPost hash inp p, hp, h]
  · simp only [Function.comp_apply, if_neg h]

theorem countP_natKey_le_one (inp : PostInput) (l : List Post)
    (hkeys : (l.map natKey).Nodup) : l.countP (natKeyMatches inp) ≤ 1 := by
  have h1 : l.countP (natKeyMatches inp) =
      l.countP (fun p => decide (natKey p = (inp.Source, inp.Channel, inp.ExternalID))) := by
    apply List.countP_congr
    intro p _
    by_cases hk : natKey p = (inp.Source, inp.Channel, inp.ExternalID)
    · rw [decide_eq_true hk, (natKeyMatches_iff inp p).mpr hk]
    · rw [decide_eq_false hk]
      cases hq : natKeyMatches inp p
      · rfl
      · exact absurd ((natKeyMatches_iff inp p).mp hq) hk
  rw [h1]
  exact countP_eq_key_le_one natKey l _ hkeys

theorem InsertPost_update (hash : String → String) (st : StoreState)
    (inp : PostInput)
    (hv1 : ¬ trimSpace inp.Source = "") (hv2 : ¬ trimSpace inp.Channel = "")
    (hv3 : ¬ trimSpace inp.ExternalID = "") (hv4 : ¬ inp.PostedAt = 0)
    (hv5 : ¬ inp.FetchedAt = 0) (hv6 : ¬ (trimSpace inp.Snippet = "" ∧ inp.Text = ""))
    (p : Post) (hfind : st.posts.find? (natKeyMatches inp) = some p) :
    InsertPost hash st inp = .ok
      ({ st with posts := st.posts.map (fun q =>
          if natKeyMatches inp q then updPost hash inp p else q) },
       updPost hash inp p) := by
  unfold InsertPost
  rw [if_neg hv1, if_neg hv2, if_neg hv3, if_neg hv4, if_neg hv5, if_neg hv6]
  simp only [hfind]

theorem InsertPost_insert (hash : String → String) (st : StoreState)
    (inp : PostInput)
    (hv1 : ¬ trimSpace inp.Source = "") (hv2 : ¬ trimSpace inp.Channel = "")
    (hv3 : ¬ trimSpace inp.ExternalID = "") (hv4 : ¬ inp.PostedAt = 0)
    (hv5 : ¬ inp.FetchedAt = 0) (hv6 : ¬ (trimSpace inp.Snippet = "" ∧ inp.Text = ""))
    (hfind : st.posts.find? (natKeyMatches inp) = none) :
    InsertPost hash st inp = .ok
      ({ st with
          posts := st.posts ++ [newPost hash inp st.nextId]
          nextId := st.nextId + 1 },
       newPost hash inp st.nextId) := by
  unfold InsertPost
  rw [if_neg hv1, if_neg hv2, if_neg hv3, if_neg hv4, if_neg hv5, if_neg hv6]
  simp only [hfind]

/-- C2: dedup is idempotent — a second pass on the unchanged result of a
first pass removes nothing and returns 0 — and inserting the same valid
input twice into a store with unique natural keys leaves exactly one row
with that natural key, the second call updating in place without adding a
row. -/
theorem claim_C2_idempotence (hash : String → String) (st stI : StoreState)
    (inp : PostInput)
    (hids : (st.posts.map Post.ID).Nodup)
    (hne : ∀ r ∈ st.posts, r.TextHash ≠ "")
    (hkeys : (stI.posts.map natKey).Nodup)
    (hv1 : ¬ trimSpace inp.Source = "") (hv2 : ¬ trimSpace inp.Channel = "")
    (hv3 : ¬ trimSpace inp.ExternalID = "") (hv4 : ¬ inp.PostedAt = 0)
    (hv5 : ¬ inp.FetchedAt = 0) (hv6 : ¬ (trimSpace inp.Snippet = "" ∧ inp.Text = "")) :
    (Deduplicate (Deduplicate st).1 = ((Deduplicate st).1, 0)) ∧
    (∃ stA pA stB pB,
      InsertPost hash stI inp = .ok (stA, pA) ∧
      InsertPost hash stA inp = .ok (stB, pB) ∧
      (stB.posts.filter (natKeyMatches inp)).length = 1 ∧
      stB.posts.length = stA.posts.length) := by
  refine ⟨Deduplicate_idem st hids hne, ?_⟩
  have hsecond : ∀ stA : StoreState, stA.posts.countP (natKeyMatches inp) = 1 →
      ∃ stB pB, InsertPost hash stA inp = .ok (stB, pB) ∧
        (stB.posts.filter (natKeyMatches inp)).length = 1 ∧
        stB.posts.length = stA.posts.length := by
    intro stA hcount
    have hpos : 0 < stA.posts.countP (natKeyMatches inp) := by omega
    have hex := List.countP_pos.mp hpos
    have hsome : (stA.posts.find? (natKeyMatches inp)).isSome = true :=
      List.find?_isSome.mpr hex
    obtain ⟨q, hq⟩ := Option.isSome_iff_exists.mp hsome
    have hqkey : natKeyMatches inp q = true := List.find?_some hq
    refine ⟨_, _, InsertPost_update hash stA inp hv1 hv2 hv3 hv4 hv5 hv6 q hq, ?_, ?_⟩
    · rw [← List.countP_eq_length_filter]
      rw [countP_natKey_map_upd hash inp q hqkey]
      exact hcount
    · exact List.length_map _ _
  cases hfind : stI.posts.find? (natKeyMatches inp) with
  | none =>
    have h1 := InsertPost_insert hash stI inp hv1 hv2 hv3 hv4 hv5 hv6 hfind
    have hcount0 : stI.posts.countP (natKeyMatches inp) = 0 :=
      List.countP_eq_zero.mpr (List.find?_eq_none.mp hfind)
    have hcountA : (stI.posts ++ [newPost hash inp stI.nextId]).countP
        (natKeyMatches inp) = 1 := by
      rw [List.countP_append, hcount0]
      simp [List.countP_cons, natKeyMatches_newPost hash inp stI.nextId]
    obtain ⟨stB, pB, h2, h3, h4⟩ := hsecond
      { stI with
          posts := stI.posts ++ [newPost hash inp stI.nextId]
          nextId := stI.nextId + 1 } hcountA
    exact ⟨_, _, stB, pB, h1, h2, h3, h4⟩
  | some p =>
    have hp : natKeyMatches inp p = true := List.find?_some hfind
    have h1 := InsertPost_update hash stI inp hv1 hv2 hv3 hv4 hv5 hv6 p hfind
    have hcountI : stI.posts.countP (natKeyMatches inp) = 1 := by
      have hle := countP_natKey_le_one inp stI.posts hkeys
      have hpos : 0 < stI.posts.countP (natKeyMatches inp) :=
        List.countP_pos.mpr ⟨p, List.mem_of_find?_eq_some hfind, hp⟩
      omega
    have hcountA : (stI.posts.map (fun q =>
        if natKeyMatches inp q then updPost hash inp p else q)).countP
          (natKeyMatches inp) = 1 := by
      rw [countP_natKey_map_upd hash inp p hp]
      exact hcountI
    obtain ⟨stB, pB, h2, h3, h4⟩ := hsecond
      { stI with
          posts := stI.posts.map (fun q =>
            if natKeyMatches inp q then updPost hash inp p else q) } hcountA
    exact ⟨_, _, stB, pB, h1, h2, h3, h4⟩

/-- Example store used by the insert witnesses: one unrelated post. -/
def c2Store : StoreState :=
  { posts :=
      [{ ID := 1, Source := "rss", Channel := "devops", ExternalID := "zz",
         Text := "old", Snippet := "old", TextHash := "old", URL := "",
         PostedAt := 7, FetchedAt := 8 }]
    scores := []
    alsoIn := []
    nextId := 2 }

/-- Example insert input used by the insert witnesses. -/
def c2Input : PostInput :=
  { Source := "telegram", Channel := "devops", ExternalID := "1",
    Text := "hello world", Snippet := "", URL := "", PostedAt := 10,
    FetchedAt := 11 }

theorem claim_C2_idempotence_witness :
    ((c1Store.posts.map Post.ID).Nodup ∧
      (∀ r ∈ c1Store.posts, r.TextHash ≠ "") ∧
      (c2Store.posts.map natKey).Nodup ∧
      ¬ trimSpace c2Input.Source = "" ∧ ¬ trimSpace c2Input.Channel = "" ∧
      ¬ trimSpace c2Input.ExternalID = "" ∧ ¬ c2Input.PostedAt = 0 ∧
      ¬ c2Input.FetchedAt = 0 ∧
      ¬ (trimSpace c2Input.Snippet = "" ∧ c2Input.Text = "")) ∧
    ((Deduplicate (Deduplicate c1Store).1 = ((Deduplicate c1Store).1, 0)) ∧
    (∃ stA pA stB pB,
      InsertPost (fun s => s) c2Store c2Input = .ok (stA, pA) ∧
      InsertPost (fun s => s) stA c2Input = .ok (stB, pB) ∧
      (stB.posts.filter (natKeyMatches c2Input)).length = 1 ∧
      stB.posts.length = stA.posts.length)) :=
  ⟨⟨by decide, by decide, by decide, by decide, by decide, by decide, by decide,
     by decide, by decide⟩,
   claim_C2_idempotence (fun s => s) c1Store c2Store c2Input (by decide)
     (by decide) (by decide) (by decide) (by decide) (by decide) (by decide)
     (by decide) (by decide)⟩

/-- C10: inserting a post whose text is empty and whose snippet trims to
empty is rejected with a validation error before any write, so the store
is unchanged; and every successful insert stores a non-empty snippet, so
a store whose posts all have non-empty snippets keeps that invariant — a
stored post can never have an empty snippet. -/
theorem claim_C10_empty_snippet (hash : String → String) (st : StoreState)
    (inp : PostInput)
    (hv1 : ¬ trimSpace inp.Source = "") (hv2 : ¬ trimSpace inp.Channel = "")
    (hv3 : ¬ trimSpace inp.ExternalID = "") (hv4 : ¬ inp.PostedAt = 0)
    (hv5 : ¬ inp.FetchedAt = 0)
    (htext : inp.Text = "") (hsnip : trimSpace inp.Snippet = "") :
    (InsertPost hash st inp = .error "snippet is required when text is empty") ∧
    (∀ st2 p, InsertPost hash st inp ≠ .ok (st2, p)) ∧
    (∀ (st1 : StoreState) (inp1 : PostInput) (st2 : StoreState) (p : Post),
      (∀ q ∈ st1.posts, q.Snippet ≠ "") →
      InsertPost hash st1 inp1 = .ok (st2, p) →
      (p.Snippet ≠ "" ∧ ∀ q ∈ st2.posts, q.Snippet ≠ "")) := by
  have herror : InsertPost hash st inp =
      .error "snippet is required when text is empty" := by
    unfold InsertPost
    rw [if_neg hv1, if_neg hv2, if_neg hv3, if_neg hv4, if_neg hv5,
      if_pos ⟨hsnip, htext⟩]
  refine ⟨herror, ?_, ?_⟩
  · intro st2 p h
    rw [herror] at h
    exact Except.noConfusion h
  · intro st1 inp1 st2 p hinv hok
    have hsnippet : insSnippet inp1 ≠ "" ∨
        (trimSpace inp1.Snippet = "" ∧ inp1.Text = "") := by
      by_cases hs : trimSpace inp1.Snippet = ""
      · by_cases ht : inp1.Text = ""
        · exact Or.inr ⟨hs, ht⟩
        · left
          unfold insSnippet
          rw [if_pos hs]
          unfold firstNRunes
          intro hmk
          have hdata : inp1.Text.data.take 200 = [] := by
            have := congrArg String.data hmk
            exact this
          rcases List.take_eq_nil_iff.mp hdata with h | h
          · exact absurd h (by omega)
          · apply ht
            apply String.ext
            rw [h]
      · left
        unfold insSnippet
        rw [if_neg hs]
        exact hs
    unfold InsertPost at hok
    split_ifs at hok with g1 g2 g3 g4 g5 g6
    · have hsnip1 : insSnippet inp1 ≠ "" := by
        rcases hsnippet with h | h
        · exact h
        · exact absurd h g6
      cases hfind : st1.posts.find? (natKeyMatches inp1) with
      | some q =>
        simp only [hfind] at hok
        have hpair := Except.ok.inj hok
        rw [Prod.mk.injEq] at hpair
        constructor
        · rw [← hpair.2]
          exact hsnip1
        · intro r hr
          rw [← hpair.1] at hr
          obtain ⟨r0, hr0, hre⟩ := List.mem_map.mp hr
          by_cases hm : natKeyMatches inp1 r0 = true
          · rw [if_pos hm] at hre
            rw [← hre]
            exact hsnip1
          · rw [if_neg hm] at hre
            rw [← hre]
            exact hinv r0 hr0
      | none =>
        simp only [hfind] at hok
        have hpair := Except.ok.inj hok
        rw [Prod.mk.injEq] at hpair
        constructor
        · rw [← hpair.2]
          exact hsnip1
        · intro r hr
          rw [← hpair.1] at hr
          rcases List.mem_append.mp hr with h | h
          · exact hinv r h
          · rw [List.mem_singleton.mp h]
            exact hsnip1

/-- Degenerate input for the C10 witness: empty text and blank snippet. -/
def c10Input : PostInput :=
  { Source := "telegram", Channel := "devops", ExternalID := "9",
    Text := "", Snippet := "   ", URL := "", PostedAt := 10, FetchedAt := 11 }

theorem claim_C10_empty_snippet_witness :
    (¬ trimSpace c10Input.Source = "" ∧ ¬ trimSpace c10Input.Channel = "" ∧
      ¬ trimSpace c10Input.ExternalID = "" ∧ ¬ c10Input.PostedAt = 0 ∧
      ¬ c10Input.FetchedAt = 0 ∧ c10Input.Text = "" ∧
      trimSpace c10Input.Snippet = "") ∧
    (InsertPost (fun s => s) c2Store c10Input =
      .error "snippet is required when text is empty") :=
  ⟨⟨by decide, by decide, by decide, by decide, by decide, by decide, by decide⟩,
   (claim_C10_empty_snippet (fun s => s) c2Store c10Input (by decide) (by decide)
     (by decide) (by decide) (by decide) (by decide) (by decide)).1⟩

end store

namespace digest

/-- `summarize.Summary`, reduced to its bullet list; no checked claim
inspects summaries. -/
structure Summary where
  Bullets : List String
deriving DecidableEq, Repr

/-- `digest.DigestItem`: a scored post with its summary and also-in list
(the embedded `taste.ScoredPost` is an explicit field here). -/
structure DigestItem where
  ScoredPost : taste.ScoredPost
  Summary : Summary
  AlsoIn : List String
deriving DecidableEq, Repr

/-- Field promotion of the embedded scored post: `item.Score` in Go. -/
def DigestItem.Score (it : DigestItem) : Int := it.ScoredPost.Score

/-- Field promotion of the embedded scored post: `item.Tier` in Go. -/
def DigestItem.Tier (it : DigestItem) : String := it.ScoredPost.Tier

end digest

namespace cli

/-- The comparison of the `sort.Slice` call in `digestAction`: scores
descending. -/
def scoreDescLe (a b : digest.DigestItem) : Bool :=
  decide (b.Score ≤ a.Score)

/-- The tier-limit loop of `digestAction`: walk the sorted items, keep at
most `topN` read_now items and at most `includeSkims` skim items, keep
everything else (the `default` arm of the Go switch). -/
def limitLoop (topN includeSkims : Int) :
    List digest.DigestItem → Int → Int → List digest.DigestItem
  | [], _, _ => []
  | it :: rest, readNowCount, skimCount =>
    if it.Tier = taste.TierReadNow then
      if readNowCount < topN then
        it :: limitLoop topN includeSkims rest (readNowCount + 1) skimCount
      else limitLoop topN includeSkims rest readNowCount skimCount
    else if it.Tier = taste.TierSkim then
      if skimCount < includeSkims then
        it :: limitLoop topN includeSkims rest readNowCount (skimCount + 1)
      else limitLoop topN includeSkims rest readNowCount skimCount
    else it :: limitLoop topN includeSkims rest readNowCount skimCount

/-- The digest-limit step of `digestAction`: sort by score descending,
then apply the tier-limit loop with both counters at zero. -/
def applyDigestLimits (topN includeSkims : Int)
    (items : List digest.DigestItem) : List digest.DigestItem :=
  limitLoop topN includeSkims (items.mergeSort scoreDescLe) 0 0

theorem limitLoop_sublist (topN ks : Int) :
    ∀ (l : List digest.DigestItem) (rn sk : Int),
      (limitLoop topN ks l rn sk).Sublist l := by
  intro l
  induction l with
  | nil => intro rn sk; simp [limitLoop]
  | cons it rest ih =>
    intro rn sk
    unfold limitLoop
    split_ifs with h1 h2 h3 h4
    · exact List.cons_sublist_cons.mpr (ih _ _)
    · exact (ih _ _).trans (List.sublist_cons_self _ _)
    · exact List.cons_sublist_cons.mpr (ih _ _)
    · exact (ih _ _).trans (List.sublist_cons_self _ _)
    · exact List.cons_sublist_cons.mpr (ih _ _)

theorem limitLoop_readNow_count (topN ks : Int) :
    ∀ (l : List digest.DigestItem) (rn sk : Int),
      ((limitLoop topN ks l rn sk).countP
          (fun it => decide (it.Tier = taste.TierReadNow)) : Int) ≤
        max (topN - rn) 0 := by
  intro l
  induction l with
  | nil =>
    intro rn sk
    simp [limitLoop]
  | cons it rest ih =>
    intro rn sk
    unfold limitLoop
    split_ifs with h1 h2 h3 h4
    · rw [List.countP_cons]
      have hd : decide (it.Tier = taste.TierReadNow) = true := decide_eq_true h1
      rw [hd]
      have := ih (rn + 1) sk
      simp only [if_true]
      push_cast
      omega
    · have := ih rn sk
      omega
    · rw [List.countP_cons]
      have hd : decide (it.Tier = taste.TierReadNow) = false := by
        apply decide_eq_false
        rw [h3]
        decide
      rw [hd]
      have := ih rn (sk + 1)
      simp only [Bool.false_eq_true, if_false]
      push_cast
      omega
    · have := ih rn sk
      omega
    · rw [List.countP_cons]
      have hd : decide (it.Tier = taste.TierReadNow) = false := decide_eq_false h1
      rw [hd]
      have := ih rn sk
      simp only [Bool.false_eq_true, if_false]
      push_cast
      omega

theorem limitLoop_skim_count (topN ks : Int) :
    ∀ (l : List digest.DigestItem) (rn sk : Int),
      ((limitLoop topN ks l rn sk).countP
          (fun it => decide (it.Tier = taste.TierSkim)) : Int) ≤
        max (ks - sk) 0 := by
  intro l
  induction l with
  | nil =>
    intro rn sk
    simp [limitLoop]
  | cons it rest ih =>
    intro rn sk
    unfold limitLoop
    split_ifs with h1 h2 h3 h4
    · rw [List.countP_cons]
      have hd : decide (it.Tier = taste.TierSkim) = false := by
        apply decide_eq_false
        rw [h1]
        decide
      rw [hd]
      have := ih (rn + 1) sk
      simp only [Bool.false_eq_true, if_false]
      push_cast
      omega
    · have := ih rn sk
      omega
    · rw [List.countP_cons]
      have hd : decide (it.Tier = taste.TierSkim) = true := decide_eq_true h3
      rw [hd]
      have := ih rn (sk + 1)
      simp only [if_true]
      push_cast
      omega
    · have := ih rn sk
      omega
    · rw [List.countP_cons]
      have hd : decide (it.Tier = taste.TierSkim) = false := decide_eq_false h3
      rw [hd]
      have := ih rn sk
      simp only [Bool.false_eq_true, if_false]
      push_cast
      omega

theorem limitLoop_keeps_other (topN ks : Int) :
    ∀ (l : List digest.DigestItem) (rn sk : Int) (it : digest.DigestItem),
      it ∈ l → it.Tier ≠ taste.TierReadNow → it.Tier ≠ taste.TierSkim →
      it ∈ limitLoop topN ks l rn sk := by
  intro l
  induction l with
  | nil =>
    intro rn sk it hmem
    exact absurd hmem (List.not_mem_nil it)
  | cons hd rest ih =>
    intro rn sk it hmem hrn hsk
    rcases List.mem_cons.mp hmem with h | h
    · subst h
      unfold limitLoop
      rw [if_neg hrn, if_neg hsk]
      exact List.mem_cons_self _ _
    · unfold limitLoop
      split_ifs with h1 h2 h3 h4
      · exact List.mem_cons.mpr (Or.inr (ih _ _ it h hrn hsk))
      · exact ih _ _ it h hrn hsk
      · exact List.mem_cons.mpr (Or.inr (ih _ _ it h hrn hsk))
      · exact ih _ _ it h hrn hsk
      · exact List.mem_cons.mpr (Or.inr (ih _ _ it h hrn hsk))

/-- The tier-limit contract of the digest pipeline: the retained list is a
subsequence of the score-sorted items, it has at most top_n read_now items
and at most include_skims skim items, and every ignore item is retained. -/
def DigestLimitSpec (topN includeSkims : Int)
    (items : List digest.DigestItem) : Prop :=
  ((applyDigestLimits topN includeSkims items).Sublist
    (items.mergeSort scoreDescLe)) ∧
  (((applyDigestLimits topN includeSkims items).countP
      (fun it => decide (it.Tier = taste.TierReadNow)) : Int) ≤ topN) ∧
  (((applyDigestLimits topN includeSkims items).countP
      (fun it => decide (it.Tier = taste.TierSkim)) : Int) ≤ includeSkims) ∧
  (∀ it ∈ items, it.Tier = taste.TierIgnore →
    it ∈ applyDigestLimits topN includeSkims items) ∧
  (∀ it ∈ applyDigestLimits topN includeSkims items, it ∈ items)

/-- C9: after sorting the digest items by score descending, the pipeline
retains at most top_n read_now items, at most include_skims skim items and
every ignore item (nonnegative limits, as configured). -/
theorem claim_C9_digest_limits (topN includeSkims : Int)
    (items : List digest.DigestItem)
    (ht : 0 ≤ topN) (hk : 0 ≤ includeSkims) :
    DigestLimitSpec topN includeSkims items := by
  refine ⟨limitLoop_sublist topN includeSkims _ 0 0, ?_, ?_, ?_, ?_⟩
  · have := limitLoop_readNow_count topN includeSkims
      (items.mergeSort scoreDescLe) 0 0
    unfold applyDigestLimits
    omega
  · have := limitLoop_skim_count topN includeSkims
      (items.mergeSort scoreDescLe) 0 0
    unfold applyDigestLimits
    omega
  · intro it hmem htier
    apply limitLoop_keeps_other
    · exact List.mem_mergeSort.mpr hmem
    · rw [htier]; decide
    · rw [htier]; decide
  · intro it hmem
    exact List.mem_mergeSort.mp
      ((limitLoop_sublist topN includeSkims _ 0 0).subset hmem)

/-- Builder for the example digest items of the C9 witness. -/
def c9Item (ch eid txt : String) (score : Int) (tier : String) : digest.DigestItem :=
  { ScoredPost :=
      { Post := { Source := "rss", Channel := ch, ExternalID := eid,
                  Text := txt, URL := "", PostedAt := 1 }
        Score := score
        Labels := []
        Tier := tier
        Explanation := [] }
    Summary := { Bullets := [] }
    AlsoIn := [] }

/-- Example digest items used by the C9 witness. -/
def c9Items : List digest.DigestItem :=
  [c9Item "a" "1" "x" 10 "read_now", c9Item "b" "2" "y" 4 "skim",
   c9Item "c" "3" "z" (-4) "ignore"]

theorem claim_C9_digest_limits_witness :
    ((0 : Int) ≤ 5 ∧ (0 : Int) ≤ 10) ∧ DigestLimitSpec 5 10 c9Items :=
  ⟨⟨by decide, by decide⟩,
   claim_C9_digest_limits 5 10 c9Items (by decide) (by decide)⟩

end cli

namespace store

/-- `PruneOld` from `internal/store/store.go`: no-op for a zero retention
(Go: `retainDays <= 0`); otherwise delete the scores of posts older than
`now − retainDays` days, then those posts (cascading onto `post_also_in`),
returning the number of posts removed. Time is seconds, one day = 86400. -/
def PruneOld (now : Nat) (retainDays : Nat) (st : StoreState) : StoreState × Nat :=
  if retainDays = 0 then (st, 0) else
  let cutoff := now - retainDays * 86400
  let oldIds := (st.posts.filter (fun p => decide (p.PostedAt < cutoff))).map Post.ID
  (({ st with
      scores := st.scores.filter (fun sc => decide (sc.PostID ∉ oldIds))
      posts := st.posts.filter (fun p => decide (¬ p.PostedAt < cutoff))
      alsoIn := st.alsoIn.filter (fun a => decide (a.PostID ∉ oldIds)) }),
   (st.posts.filter (fun p => decide (p.PostedAt < cutoff))).length)

end store

namespace cli

/-- The `source.Source` capability pair used by the pull loop: a name and
a fetch function. Fetch results are supplied as data (`none` models a
fetch error; the network is outside the embedding). -/
structure SourceM where
  Name : String
  fetch : Nat → Option (List source.Post)

/-- The configuration fields `pullAction` reads: the digest window
`cfg.Digest.Since.Duration` (seconds), `cfg.Storage.RetainDays` and
`cfg.Privacy.StoreFullText`. Redaction patterns are not modelled — no
checked claim depends on them. -/
structure PullConfig where
  digestSince : Nat
  retainDays : Nat
  storeFullText : Bool
deriving DecidableEq, Repr

/-- The retention window of the storage configuration, in seconds. -/
def retentionWindow (cfg : PullConfig) : Nat := cfg.retainDays * 86400

/-- The `store.PostInput` the pull loop builds for one fetched post:
privacy mode clears the stored text and pre-computes the snippet. -/
def toInput (cfg : PullConfig) (now : Nat) (p : source.Post) : store.PostInput :=
  { Source := p.Source, Channel := p.Channel, ExternalID := p.ExternalID
    Text := if cfg.storeFullText then p.Text else ""
    Snippet := if cfg.storeFullText then "" else store.firstNRunes p.Text 200
    URL := p.URL, PostedAt := p.PostedAt, FetchedAt := now }

/-- The inner insert loop of `pullAction`: a store error fails the whole
pass, otherwise the insert count grows by one per post. -/
def insertAll (hash : String → String) (cfg : PullConfig) (now : Nat) :
    store.StoreState → List source.Post → Nat →
    Except String (store.StoreState × Nat)
  | st, [], total => .ok (st, total)
  | st, p :: ps, total =>
    match store.InsertPost hash st (toInput cfg now p) with
    | .error e => .error e
    | .ok (st2, _) => insertAll hash cfg now st2 ps (total + 1)

/-- The source loop of `pullAction`: sources are visited strictly in list
(configuration) order; each `Fetch` call is recorded in the trace with its
`since` argument; a failed fetch logs a warning and continues with the
next source. -/
def pullLoop (hash : String → String) (cfg : PullConfig) (since now : Nat) :
    List SourceM → store.StoreState → List (String × Nat) → Nat →
    Except String (store.StoreState × List (String × Nat) × Nat)
  | [], st, trace, total => .ok (st, trace, total)
  | src :: rest, st, trace, total =>
    match src.fetch since with
    | none => pullLoop hash cfg since now rest st (trace ++ [(src.Name, since)]) total
    | some posts =>
      match insertAll hash cfg now st posts total with
      | .error e => .error e
      | .ok (st2, total2) =>
        pullLoop hash cfg since now rest st2 (trace ++ [(src.Name, since)]) total2

/-- `pullAction` from the CLI pull command: compute
`since = now − cfg.Digest.Since.Duration`, run the source loop, then
deduplicate and prune. The result carries the final store, the trace of
(source name, since) fetch calls, and the inserted/removed/pruned counts. -/
def pullAction (hash : String → String) (now : Nat) (cfg : PullConfig)
    (sources : List SourceM) (st : store.StoreState) :
    Except String (store.StoreState × List (String × Nat) × Nat × Nat × Nat) :=
  match pullLoop hash cfg (now - cfg.digestSince) now sources st [] 0 with
  | .error e => .error e
  | .ok (st2, trace, total) =>
    let dd := store.Deduplicate st2
    let pr := store.PruneOld now cfg.retainDays dd.1
    .ok (pr.1, trace, total, dd.2, pr.2)

theorem pullLoop_trace (hash : String → String) (cfg : PullConfig)
    (since now : Nat) :
    ∀ (sources : List SourceM) (st : store.StoreState)
      (trace : List (String × Nat)) (total : Nat)
      (st2 : store.StoreState) (tr2 : List (String × Nat)) (total2 : Nat),
      pullLoop hash cfg since now sources st trace total = .ok (st2, tr2, total2) →
      tr2 = trace ++ sources.map (fun s => (s.Name, since)) := by
  intro sources
  induction sources with
  | nil =>
    intro st trace total st2 tr2 total2 h
    simp only [pullLoop] at h
    have := (Except.ok.inj h)
    rw [Prod.mk.injEq] at this
    have h2 := this.2
    rw [Prod.mk.injEq] at h2
    rw [← h2.1]
    simp
  | cons src rest ih =>
    intro st trace total st2 tr2 total2 h
    simp only [pullLoop] at h
    cases hf : src.fetch since with
    | none =>
      simp only [hf] at h
      have := ih st (trace ++ [(src.Name, since)]) total st2 tr2 total2 h
      rw [this]
      simp
    | some posts =>
      simp only [hf] at h
      cases hins : insertAll hash cfg now st posts total with
      | error e =>
        simp only [hins] at h
        exact Except.noConfusion h
      | ok r =>
        obtain ⟨rst, rtot⟩ := r
        simp only [hins] at h
        have := ih rst (trace ++ [(src.Name, since)]) rtot st2 tr2 total2 h
        rw [this]
        simp

/-- The fetch contract of the pull loop: on a successful pass the recorded
fetch calls are exactly one per configured source, in configuration order,
each with the same `since` argument. -/
def PullTraceSpec (hash : String → String) (now : Nat) (cfg : PullConfig)
    (sources : List SourceM) (st : store.StoreState)
    (since : Nat) : Prop :=
  ∀ (st2 : store.StoreState) (tr : List (String × Nat)) (a b c : Nat),
    pullAction hash now cfg sources st = .ok (st2, tr, a, b, c) →
    tr = sources.map (fun s => (s.Name, since))

/-- C7 amended: every successful pull pass invokes each configured
source's Fetch once, in configuration order (the loop is sequential),
with `since = now − cfg.Digest.Since.Duration` — the digest window, not
the storage retention window. -/
theorem claim_C7_pull_amended (hash : String → String) (now : Nat)
    (cfg : PullConfig) (sources : List SourceM) (st : store.StoreState) :
    PullTraceSpec hash now cfg sources st (now - cfg.digestSince) := by
  intro st2 tr a b c h
  unfold pullAction at h
  cases hp : pullLoop hash cfg (now - cfg.digestSince) now sources st [] 0 with
  | error e =>
    rw [hp] at h
    exact Except.noConfusion h
  | ok r =>
    rw [hp] at h
    have htr := pullLoop_trace hash cfg (now - cfg.digestSince) now sources st
      [] 0 r.1 r.2.1 r.2.2 (by rw [hp])
    have := (Except.ok.inj h)
    rw [Prod.mk.injEq] at this
    have h2 := this.2
    rw [Prod.mk.injEq] at h2
    rw [← h2.1]
    simpa using htr

/-- Configuration for the concrete pull scenarios: a one-hour digest
window and a 30-day retention. -/
def c7Cfg : PullConfig := { digestSince := 3600, retainDays := 30, storeFullText := true }

/-- A source whose fetch succeeds with no posts, recording its call. -/
def c7Src : SourceM := { Name := "rss", fetch := fun _ => some [] }

/-- The empty store. -/
def c7Store : store.StoreState := { posts := [], scores := [], alsoIn := [], nextId := 1 }

theorem c7_eval : pullAction (fun s => s) 100000000 c7Cfg [c7Src] c7Store =
    .ok (c7Store, [("rss", 99996400)], 0, 0, 0) := by
  simp [pullAction, pullLoop, insertAll, c7Cfg, c7Src, c7Store,
    store.Deduplicate, store.dedupScan, List.mergeSort_nil, store.PruneOld]

/-- C7 counterexample: the pull pass fetches with
`since = now − digest window` (here 100000000 − 3600 = 99996400), which
differs from `now − retention window` (100000000 − 30·86400 = 97408000):
the claim that Fetch receives now minus the retention window is false. -/
theorem claim_C7_counterexample :
    (pullAction (fun s => s) 100000000 c7Cfg [c7Src] c7Store =
      .ok (c7Store, [("rss", 99996400)], 0, 0, 0)) ∧
    99996400 ≠ 100000000 - retentionWindow c7Cfg := by
  refine ⟨c7_eval, ?_⟩
  decide

theorem claim_C7_pull_amended_witness :
    (pullAction (fun s => s) 100000000 c7Cfg [c7Src] c7Store =
      .ok (c7Store, [("rss", 99996400)], 0, 0, 0)) ∧
    [("rss", 99996400)] =
      [c7Src].map (fun s => (s.Name, 100000000 - c7Cfg.digestSince)) :=
  ⟨c7_eval,
   claim_C7_pull_amended (fun s => s) 100000000 c7Cfg [c7Src] c7Store
     c7Store [("rss", 99996400)] 0 0 0 c7_eval⟩

end cli

/-! ## Channel statistics (claim C8)

`GetChannelStats` aggregates the `posts` table per `(source, channel)`
pair over a time window. The revision of the function in
`src/internal/store/store.go` selects `MAX(p.posted_at)` only; the
revision read by `internal/cli/stats.go` and its tests additionally
returns the `FirstSeen` field (the earliest `posted_at`, which the spec
describes) and is absent from `src/`, so that one field is modelled from
the spec while every other aggregate is translated from the SQL in
`store.go`. -/

namespace store

/-- `store.ChannelStats` as read by `internal/cli/stats.go` and its
tests: per-(source, channel) aggregates, including the `FirstSeen` field
those callers consume. -/
structure ChannelStats where
  Source : String
  Channel : String
  Total : Nat
  ReadNow : Nat
  Skim : Nat
  Ignored : Nat
  FirstSeen : Nat
  LastSeen : Nat
deriving DecidableEq, Repr

/-- Tier of the score row joined to a post by `LEFT JOIN scores s ON
s.post_id = p.id` (`post_id` is the primary key of `scores`, so at most
one row joins); `none` models the SQL NULL of an unmatched left join. -/
def tierOf (st : StoreState) (p : Post) : Option String :=
  (st.scores.find? (fun sc => sc.PostID == p.ID)).map Score.Tier

/-- The `CASE WHEN s.tier = "ignore" OR s.tier IS NULL` bucket of the
`GetChannelStats` query: tier `ignore`, or no score row at all. -/
def countsAsIgnore (st : StoreState) (p : Post) : Bool :=
  tierOf st p == some "ignore" || (tierOf st p).isNone

/-- GROUP BY key collection: a key list that records each
`(source, channel)` pair once, in first-appearance order. -/
def insertKey (l : List (String × String)) (k : String × String) :
    List (String × String) :=
  if k ∈ l then l else l ++ [k]

/-- `ORDER BY p.source, p.channel` as a Boolean order on group keys. -/
def keyLe (a b : String × String) : Bool :=
  if a.1 = b.1 then decide (a.2 ≤ b.2) else decide (a.1 ≤ b.1)

/-- Post rows of one GROUP BY group: the window filter
(`WHERE p.posted_at >= ?`) followed by the `(source, channel)` key
match. -/
def statsGroup (st : StoreState) (since : Nat) (k : String × String) :
    List Post :=
  (st.posts.filter (fun p => decide (since ≤ p.PostedAt))).filter
    (fun p => p.Source == k.1 && p.Channel == k.2)

/-- Modelled from the spec: the result row of one GROUP BY group.
`Total` (`COUNT`), `ReadNow`, `Skim`, `Ignored` (the three `SUM(CASE
...)` columns, a missing score counted as ignore) and `LastSeen`
(`MAX(p.posted_at)`) are translated from the SQL in
`internal/store/store.go`; `FirstSeen`, the earliest `posted_at` of the
group, follows the spec sentence because the `GetChannelStats` revision
returning it is absent from `src/`. -/
def statsOfKey (st : StoreState) (since : Nat) (k : String × String) :
    ChannelStats :=
  let g := statsGroup st since k
  let ts := g.map Post.PostedAt
  { Source := k.1
    Channel := k.2
    Total := g.length
    ReadNow := g.countP (fun p => tierOf st p == some "read_now")
    Skim := g.countP (fun p => tierOf st p == some "skim")
    Ignored := g.countP (countsAsIgnore st)
    FirstSeen := ts.min?.getD 0
    LastSeen := ts.max?.getD 0 }

/-- `GetChannelStats` from `internal/store/store.go`: filter posts to the
window, group them by `(source, channel)`, order the groups by source
then channel, and aggregate each group (see `statsOfKey` for the
spec-modelled `FirstSeen` field). -/
def GetChannelStats (st : StoreState) (since : Nat) : List ChannelStats :=
  let rows := st.posts.filter (fun p => decide (since ≤ p.PostedAt))
  let keys := rows.foldl (fun a p => insertKey a (p.Source, p.Channel)) []
  (keys.mergeSort keyLe).map (statsOfKey st since)

/-- The rows of the `(src, ch)` group as a single filter over the posts
table, stated the way claim C8 reads. -/
def chanGroup (st : StoreState) (since : Nat) (src ch : String) :
    List Post :=
  st.posts.filter
    (fun p => decide (since ≤ p.PostedAt) && p.Source == src && p.Channel == ch)

theorem mem_insertKey {l : List (String × String)} {x k : String × String} :
    k ∈ insertKey l x ↔ k ∈ l ∨ k = x := by
  unfold insertKey
  split_ifs with h
  · constructor
    · exact Or.inl
    · rintro (hk | rfl)
      · exact hk
      · exact h
  · simp [List.mem_append]

theorem nodup_insertKey {l : List (String × String)} {x : String × String}
    (h : l.Nodup) : (insertKey l x).Nodup := by
  unfold insertKey
  split_ifs with hx
  · exact h
  · rw [List.nodup_append]
    refine ⟨h, List.nodup_singleton x, ?_⟩
    intro a ha hb
    rw [List.mem_singleton] at hb
    subst hb
    exact hx ha

theorem statsKeys_mem (rows : List Post) :
    ∀ (acc : List (String × String)) (k : String × String),
      (k ∈ rows.foldl (fun a p => insertKey a (p.Source, p.Channel)) acc ↔
        k ∈ acc ∨ ∃ p ∈ rows, (p.Source, p.Channel) = k) := by
  induction rows with
  | nil => intro acc k; simp
  | cons q rows ih =>
    intro acc k
    rw [List.foldl_cons, ih]
    constructor
    · rintro (hk | hp)
      · rcases mem_insertKey.mp hk with hk | rfl
        · exact Or.inl hk
        · exact Or.inr ⟨q, List.mem_cons_self q rows, rfl⟩
      · obtain ⟨p, hp1, hp2⟩ := hp
        exact Or.inr ⟨p, List.mem_cons_of_mem q hp1, hp2⟩
    · rintro (hk | ⟨p, hp1, hp2⟩)
      · exact Or.inl (mem_insertKey.mpr (Or.inl hk))
      · rcases List.mem_cons.mp hp1 with rfl | hp1
        · exact Or.inl (mem_insertKey.mpr (Or.inr hp2.symm))
        · exact Or.inr ⟨p, hp1, hp2⟩

theorem statsKeys_nodup (rows : List Post) :
    ∀ acc : List (String × String), acc.Nodup →
      (rows.foldl (fun a p => insertKey a (p.Source, p.Channel)) acc).Nodup := by
  induction rows with
  | nil => intro acc h; simpa using h
  | cons q rows ih =>
    intro acc h
    rw [List.foldl_cons]
    exact ih _ (nodup_insertKey h)

theorem statsGroup_eq (st : StoreState) (since : Nat) (k : String × String) :
    statsGroup st since k = chanGroup st since k.1 k.2 := by
  unfold statsGroup chanGroup
  generalize st.posts = l
  induction l with
  | nil => rfl
  | cons p l ih =>
    by_cases h1 : since ≤ p.PostedAt <;> by_cases h2 : p.Source = k.1 <;>
      by_cases h3 : p.Channel = k.2 <;>
      simp [List.filter_cons, h1, h2, h3, ih]

theorem mem_getChannelStats {st : StoreState} {since : Nat}
    {e : ChannelStats} :
    e ∈ GetChannelStats st since ↔
      ∃ k : String × String,
        (∃ p, p ∈ st.posts ∧ since ≤ p.PostedAt ∧ (p.Source, p.Channel) = k) ∧
        e = statsOfKey st since k := by
  simp only [GetChannelStats, List.mem_map, List.mem_mergeSort]
  constructor
  · rintro ⟨k, hk, rfl⟩
    rcases (statsKeys_mem _ [] k).mp hk with h | ⟨p, hp, hpk⟩
    · exact absurd h (List.not_mem_nil k)
    · rw [List.mem_filter] at hp
      exact ⟨k, ⟨p, hp.1, of_decide_eq_true hp.2, hpk⟩, rfl⟩
  · rintro ⟨k, ⟨p, hp1, hp2, hp3⟩, rfl⟩
    refine ⟨k, ?_, rfl⟩
    refine (statsKeys_mem _ [] k).mpr (Or.inr ⟨p, ?_, hp3⟩)
    rw [List.mem_filter]
    exact ⟨hp1, decide_eq_true hp2⟩

theorem mem_statsGroup_of_key {st : StoreState} {since : Nat} {p : Post}
    {k : String × String} (hp1 : p ∈ st.posts) (hp2 : since ≤ p.PostedAt)
    (hp3 : (p.Source, p.Channel) = k) : p ∈ statsGroup st since k := by
  unfold statsGroup
  rw [List.mem_filter]
  constructor
  · rw [List.mem_filter]
    exact ⟨hp1, decide_eq_true hp2⟩
  · have h1 : p.Source = k.1 := by rw [← hp3]
    have h2 : p.Channel = k.2 := by rw [← hp3]
    simp [h1, h2]

theorem min_max_posted (g : List Post) (hne : g ≠ []) :
    ((∃ p ∈ g, p.PostedAt = ((g.map Post.PostedAt).min?.getD 0)) ∧
     (∃ p ∈ g, p.PostedAt = ((g.map Post.PostedAt).max?.getD 0)) ∧
     ∀ p ∈ g, ((g.map Post.PostedAt).min?.getD 0) ≤ p.PostedAt ∧
       p.PostedAt ≤ ((g.map Post.PostedAt).max?.getD 0)) := by
  cases hmin : (g.map Post.PostedAt).min? with
  | none =>
    rw [List.min?_eq_none_iff, List.map_eq_nil_iff] at hmin
    exact absurd hmin hne
  | some m =>
    cases hmax : (g.map Post.PostedAt).max? with
    | none =>
      rw [List.max?_eq_none_iff, List.map_eq_nil_iff] at hmax
      exact absurd hmax hne
    | some M =>
      have hm := (List.min?_eq_some_iff (fun a => le_refl a)
        (fun a b => min_choice a b) (fun a b c => le_min_iff)).mp hmin
      have hM := (List.max?_eq_some_iff (fun a => le_refl a)
        (fun a b => max_choice a b) (fun a b c => max_le_iff)).mp hmax
      obtain ⟨hm1, hm2⟩ := hm
      obtain ⟨hM1, hM2⟩ := hM
      obtain ⟨p1, hp1, hp1e⟩ := List.mem_map.mp hm1
      obtain ⟨p2, hp2, hp2e⟩ := List.mem_map.mp hM1
      simp only [Option.getD_some]
      refine ⟨⟨p1, hp1, hp1e⟩, ⟨p2, hp2, hp2e⟩, ?_⟩
      intro p hp
      exact ⟨hm2 _ (List.mem_map_of_mem _ hp), hM2 _ (List.mem_map_of_mem _ hp)⟩

/-- What claim C8 asserts of `GetChannelStats`: one result row per
`(source, channel)` pair that has a post in the window - and only those
pairs - whose counters are the per-tier totals over the group (a missing
score row counted as ignore), and whose `FirstSeen` and `LastSeen` are
the earliest and latest `posted_at` of the group. -/
def ChannelStatsSpec (st : StoreState) (since : Nat) : Prop :=
  (∀ src ch : String,
      (∃ e ∈ GetChannelStats st since, e.Source = src ∧ e.Channel = ch) ↔
        ∃ p ∈ st.posts, since ≤ p.PostedAt ∧ p.Source = src ∧ p.Channel = ch) ∧
  ((GetChannelStats st since).map (fun e => (e.Source, e.Channel))).Nodup ∧
  ∀ e ∈ GetChannelStats st since,
    e.Total = (chanGroup st since e.Source e.Channel).length ∧
    e.ReadNow = (chanGroup st since e.Source e.Channel).countP
      (fun p => tierOf st p == some "read_now") ∧
    e.Skim = (chanGroup st since e.Source e.Channel).countP
      (fun p => tierOf st p == some "skim") ∧
    e.Ignored = (chanGroup st since e.Source e.Channel).countP (countsAsIgnore st) ∧
    (∃ p ∈ chanGroup st since e.Source e.Channel, p.PostedAt = e.FirstSeen) ∧
    (∃ p ∈ chanGroup st since e.Source e.Channel, p.PostedAt = e.LastSeen) ∧
    ∀ p ∈ chanGroup st since e.Source e.Channel,
      e.FirstSeen ≤ p.PostedAt ∧ p.PostedAt ≤ e.LastSeen

/-- C8: for every store state and cutoff, `GetChannelStats` returns
exactly one row per `(source, channel)` pair with posts since the
cutoff; each row counts the group total and the per-tier totals with a
missing score row counted as ignore, and reports the earliest and latest
`posted_at` of the group (the `FirstSeen` field is modelled from the
spec, see `statsOfKey`). -/
theorem claim_C8_channel_stats (st : StoreState) (since : Nat) :
    ChannelStatsSpec st since := by
  unfold ChannelStatsSpec
  refine ⟨?_, ?_, ?_⟩
  · intro src ch
    constructor
    · rintro ⟨e, he, hs, hc⟩
      obtain ⟨k, ⟨p, hp1, hp2, hp3⟩, rfl⟩ := mem_getChannelStats.mp he
      refine ⟨p, hp1, hp2, ?_, ?_⟩
      · rw [show p.Source = k.1 from congrArg Prod.fst hp3]
        exact hs
      · rw [show p.Channel = k.2 from congrArg Prod.snd hp3]
        exact hc
    · rintro ⟨p, hp1, hp2, hs, hc⟩
      refine ⟨statsOfKey st since (src, ch), ?_, rfl, rfl⟩
      exact mem_getChannelStats.mpr
        ⟨(src, ch), ⟨p, hp1, hp2, by rw [hs, hc]⟩, rfl⟩
  · have hmap : ∀ l : List (String × String),
        (l.map (statsOfKey st since)).map (fun e => (e.Source, e.Channel)) = l := by
      intro l
      induction l with
      | nil => rfl
      | cons a t ih =>
        show (a.1, a.2) ::
            ((t.map (statsOfKey st since)).map (fun e => (e.Source, e.Channel))) =
          a :: t
        rw [Prod.mk.eta, ih]
    simp only [GetChannelStats]
    rw [hmap]
    exact ((List.mergeSort_perm _ keyLe).nodup_iff).mpr
      (statsKeys_nodup _ [] List.nodup_nil)
  · intro e he
    obtain ⟨k, ⟨p, hp1, hp2, hp3⟩, rfl⟩ := mem_getChannelStats.mp he
    have hpg : p ∈ statsGroup st since k := mem_statsGroup_of_key hp1 hp2 hp3
    have hne : statsGroup st since k ≠ [] := by
      intro h0
      rw [h0] at hpg
      exact List.not_mem_nil p hpg
    have hgrp : chanGroup st since (statsOfKey st since k).Source
        (statsOfKey st since k).Channel = statsGroup st since k := by
      show chanGroup st since k.1 k.2 = statsGroup st since k
      exact (statsGroup_eq st since k).symm
    obtain ⟨hmin, hmax, hbound⟩ := min_max_posted (statsGroup st since k) hne
    rw [hgrp]
    refine ⟨rfl, rfl, rfl, rfl, ?_, ?_, ?_⟩
    · exact hmin
    · exact hmax
    · intro q hq
      exact hbound q hq

end store

end Noisepan
